import Mathlib

/-!
Verification of the kumiko panel-extraction pipeline (`src/lib/page.py`).

The `Page` pipeline methods are translated here as pure functions over an
explicit list of panels.  The `Panel` and `Segment` primitive classes are not
part of the sources; every operation of theirs that the pipeline calls is
modelled from the specification (each such definition carries a doc comment
starting with `Modelled from the spec:`).

Coordinates are integers (the spec fixes integer panel edges); the size
thresholds involve the rational `min_panel_size_ratio`, so threshold
comparisons are carried out in `ℚ`.
-/

/-- An axis-aligned panel rectangle, identified by its four edge coordinates
`x` (left), `y` (top), `r` (right), `b` (bottom), as in the spec's data model.
Equality of panels is value equality of the four edges. -/
structure Panel where
  x : Int
  y : Int
  r : Int
  b : Int
deriving DecidableEq, Repr

namespace Panel

/-- Width `w = r - x`. -/
def w (p : Panel) : Int := p.r - p.x

/-- Height `h = b - y`. -/
def h (p : Panel) : Int := p.b - p.y

/-- Modelled from the spec: `Panel.from_xyrb` (class `Panel` is not under
`src/`); builds the panel with the four given edge coordinates. -/
def fromXYRB (x y r b : Int) : Panel := ⟨x, y, r, b⟩

/-- Modelled from the spec: the `Panel(page, xywh = [x, y, w, h])` constructor
(class `Panel` is not under `src/`); `r = x + w`, `b = y + h`. -/
def fromXYWH (x y w h : Int) : Panel := ⟨x, y, x + w, y + h⟩

/-- Modelled from the spec: `Panel.to_xywh` (class `Panel` is not under
`src/`). -/
def toXYWH (p : Panel) : List Int := [p.x, p.y, p.w, p.h]

/-- Modelled from the spec: `Panel.contains` — "true iff `other` lies fully
inside `self`'s rectangle (edges inclusive)". -/
def containsP (p q : Panel) : Bool :=
  p.x ≤ q.x && q.r ≤ p.r && p.y ≤ q.y && q.b ≤ p.b

/-- Modelled from the spec: `Panel.merge` — "rectangle = smallest enclosing
rectangle of both". -/
def mergeP (p q : Panel) : Panel :=
  ⟨min p.x q.x, min p.y q.y, max p.r q.r, max p.b q.b⟩

/-- Modelled from the spec: `Panel.overlap_panel` — "the rectangle of
intersection if non-empty area, else none". -/
def overlapPanel (p q : Panel) : Option Panel :=
  let o : Panel := ⟨max p.x q.x, max p.y q.y, min p.r q.r, min p.b q.b⟩
  if 0 < o.w ∧ 0 < o.h then some o else none

/-- Overlap of the vertical spans of two panels (positive iff the projections
on the y axis overlap). -/
def yOverlap (p q : Panel) : Int := min p.b q.b - max p.y q.y

/-- Overlap of the horizontal spans of two panels (positive iff the
projections on the x axis overlap). -/
def xOverlap (p q : Panel) : Int := min p.r q.r - max p.x q.x

end Panel

/-- The page configuration a pipeline pass depends on: image width `W`,
image height `H` and the small-panel size cut-off (the source's
`small_panel_ratio`, default `1/15`), written `smallCut` here. -/
structure PageCfg where
  W : Int
  H : Int
  smallCut : ℚ
deriving DecidableEq, Repr

namespace PageCfg

/-- The shorter page dimension `S = min(W, H)` the spec's thresholds refer
to. -/
def S (cfg : PageCfg) : Int := min cfg.W cfg.H

end PageCfg

namespace Panel

/-- Modelled from the spec: `Panel.is_small` (class `Panel` is not under
`src/`) — "*small*: `w < S · min_panel_size_ratio` or
`h < S · min_panel_size_ratio`", with `S = min(W, H)`. -/
def isSmall (cfg : PageCfg) (p : Panel) : Bool :=
  ((p.w : ℚ) < (cfg.S : ℚ) * cfg.smallCut) || ((p.h : ℚ) < (cfg.S : ℚ) * cfg.smallCut)

/-- Modelled from the spec: `Panel.is_close` (class `Panel` is not under
`src/`) — "*close* (between two panels): minimum bounding-box edge distance
≤ `S/10` AND the panels are roughly aligned on at least one axis (overlap
projected on that axis > 0)". The gap on an axis is the signed distance
between the two boxes on that axis (non-positive when they overlap). -/
def isClose (cfg : PageCfg) (p q : Panel) : Bool :=
  let gapX : Int := max (p.x - q.r) (q.x - p.r)
  let gapY : Int := max (p.y - q.b) (q.y - p.b)
  (0 < yOverlap p q && (gapX : ℚ) ≤ (cfg.S : ℚ) / 10)
    || (0 < xOverlap p q && (gapY : ℚ) ≤ (cfg.S : ℚ) / 10)

end Panel

/-! ### Numbering check (`Page.__init__`, `src/lib/page.py` lines 47-49)

The constructor stores `numbering or "ltr"` and then tests the *original*
argument for membership in `['ltr', 'rtl']`, raising a fatal error otherwise.
A `None` (omitted) argument is falsy, so the stored default is `"ltr"`, but
`None in ['ltr', 'rtl']` is false. -/

/-- The string literal `"ltr"`. -/
def ltrStr : String := "ltr"

/-- The string literal `"rtl"`. -/
def rtlStr : String := "rtl"

/-- Fatal errors the modelled constructor fragment can raise. -/
inductive InitError where
  | unknownNumbering
deriving DecidableEq, Repr

/-- `self.numbering = numbering or "ltr"`: Python `or` takes the default when
the argument is `None` or the empty string (both falsy). -/
def defaultedNumbering (numbering : Option String) : String :=
  match numbering with
  | none => ltrStr
  | some s => if s = String.mk [] then ltrStr else s

/-- Translation of `src/lib/page.py` lines 47-49: store
`numbering or "ltr"`, then raise unless the *original* `numbering` argument
is one of `'ltr'`, `'rtl'`. Returns the stored numbering on success. -/
def initNumbering (numbering : Option String) : Except InitError String :=
  let stored := defaultedNumbering numbering
  if numbering = some ltrStr ∨ numbering = some rtlStr then
    Except.ok stored
  else
    Except.error InitError.unknownNumbering

/-! ### Neighbour search (spec §4.7; `Panel.find_*_panel` is not under `src/`) -/

/-- One of the four directions `x`, `y`, `r`, `b` used by the pipeline. -/
inductive Dir where
  | x
  | y
  | r
  | b
deriving DecidableEq, Repr

/-- The edge coordinate of a panel in a direction. -/
def Panel.edge (p : Panel) : Dir → Int
  | .x => p.x
  | .y => p.y
  | .r => p.r
  | .b => p.b

/-- Replace the edge coordinate of a panel in a direction. -/
def Panel.setEdge (p : Panel) : Dir → Int → Panel
  | .x, v => { p with x := v }
  | .y, v => { p with y := v }
  | .r, v => { p with r := v }
  | .b, v => { p with b := v }

/-- The opposite edge used when expanding towards a neighbour
(`{'x': 'r', 'r': 'x', 'y': 'b', 'b': 'y'}` in the source). -/
def Dir.opposite : Dir → Dir
  | .x => .r
  | .r => .x
  | .y => .b
  | .b => .y

/-- Keep the best candidate of a list; on ties the earlier one wins, like
Python's `min`/`max`. -/
def pickBest (better : Panel → Panel → Bool) (l : List Panel) : Option Panel :=
  l.foldl
    (fun acc q =>
      match acc with
      | none => some q
      | some c => if better q c then some q else some c)
    none

/-- Modelled from the spec: `Panel.find_left_panel` (class `Panel` is not
under `src/`) — "among panels whose projection on the perpendicular axis
overlaps P's, pick the one whose relevant edge is closest to P on the d side
and strictly outside P; break ties by largest projected overlap". -/
def findLeftPanel (panels : List Panel) (p : Panel) : Option Panel :=
  pickBest
    (fun a c => c.r < a.r || (a.r = c.r && Panel.yOverlap p c < Panel.yOverlap p a))
    (panels.filter (fun q => q ≠ p && q.r ≤ p.x && 0 < Panel.yOverlap p q))

/-- Modelled from the spec: `Panel.find_right_panel`, symmetric to the left
search. -/
def findRightPanel (panels : List Panel) (p : Panel) : Option Panel :=
  pickBest
    (fun a c => a.x < c.x || (a.x = c.x && Panel.yOverlap p c < Panel.yOverlap p a))
    (panels.filter (fun q => q ≠ p && p.r ≤ q.x && 0 < Panel.yOverlap p q))

/-- Modelled from the spec: `Panel.find_top_panel`, the vertical analogue. -/
def findTopPanel (panels : List Panel) (p : Panel) : Option Panel :=
  pickBest
    (fun a c => c.b < a.b || (a.b = c.b && Panel.xOverlap p c < Panel.xOverlap p a))
    (panels.filter (fun q => q ≠ p && q.b ≤ p.y && 0 < Panel.xOverlap p q))

/-- Modelled from the spec: `Panel.find_bottom_panel`, the vertical
analogue. -/
def findBottomPanel (panels : List Panel) (p : Panel) : Option Panel :=
  pickBest
    (fun a c => a.y < c.y || (a.y = c.y && Panel.xOverlap p c < Panel.xOverlap p a))
    (panels.filter (fun q => q ≠ p && p.b ≤ q.y && 0 < Panel.xOverlap p q))

/-- Modelled from the spec: `Panel.find_neighbour_panel(d)` dispatches the
directional searches. -/
def findNeighbourPanel (panels : List Panel) (p : Panel) : Dir → Option Panel
  | .x => findLeftPanel panels p
  | .y => findTopPanel panels p
  | .r => findRightPanel panels p
  | .b => findBottomPanel panels p

/-! ### Gutter estimation (`Page.actual_gutters`, lines 277-294, and the
`gutters` field of `Page.get_infos`, line 29) -/

/-- The record returned by `actual_gutters` (keys `x`, `y`, `r`, `b`). -/
structure Gutters where
  x : Int
  y : Int
  r : Int
  b : Int
deriving DecidableEq, Repr

/-- Python `min` of a list, as used by `actual_gutters` on the nonempty gap
lists (the `[]` case never arises there, the source replaces empty lists by
`[1]` first). -/
def pyMin : List Int → Int
  | [] => 0
  | a :: as => as.foldl min a

/-- Translation of `Page.actual_gutters` with the default aggregator
`func = min`: collect the horizontal gap to each panel's left neighbour and
the vertical gap to its top neighbour, replace empty collections by `[1]`,
and return the minima together with their negated `r`/`b` variants. -/
def actualGutters (panels : List Panel) : Gutters :=
  let gx := panels.foldl
    (fun acc p =>
      match findLeftPanel panels p with
      | some lp => acc ++ [p.x - lp.r]
      | none => acc)
    []
  let gy := panels.foldl
    (fun acc p =>
      match findTopPanel panels p with
      | some tp => acc ++ [p.y - tp.b]
      | none => acc)
    []
  let gx := if gx = [] then [1] else gx
  let gy := if gy = [] then [1] else gy
  ⟨pyMin gx, pyMin gy, -(pyMin gx), -(pyMin gy)⟩

/-- The gutter value `actual_gutters` exposes in a direction. -/
def Gutters.ofDir (g : Gutters) : Dir → Int
  | .x => g.x
  | .y => g.y
  | .r => g.r
  | .b => g.b

/-- The `gutters` entry of `Page.get_infos` (line 29):
`[actual_gutters['x'], actual_gutters['y']]`. -/
def getInfosGutters (panels : List Panel) : List Int :=
  [(actualGutters panels).x, (actualGutters panels).y]

/-! ### De-overlap (`Page.deoverlap_panels`, lines 237-257) -/

/-- The body of the de-overlap double loop for one ordered pair: compute the
overlap rectangle and, following the source's two guarded branches, retract
`p1`'s right (resp. bottom) edge to the overlap's left (resp. top) edge and
push `p2`'s left (resp. top) edge to the overlap's right (resp. bottom)
edge. -/
def deoverlapPair (p1 p2 : Panel) : Panel × Panel :=
  match Panel.overlapPanel p1 p2 with
  | none => (p1, p2)
  | some o =>
    if o.w < o.h ∧ p1.r = o.r then ({ p1 with r := o.x }, { p2 with x := o.r })
    else if o.h < o.w ∧ p1.b = o.b then ({ p1 with b := o.y }, { p2 with y := o.b })
    else (p1, p2)

/-- Translation of `Page.deoverlap_panels`: iterate the pair body over all
ordered pairs of (current) panels, skipping value-equal panels; mutation is
modelled by writing the adjusted pair back into the list (writing back an
unchanged pair leaves the list unchanged). -/
def deoverlapPanels (panels : List Panel) : List Panel :=
  (List.range panels.length).foldl
    (fun st i =>
      (List.range panels.length).foldl
        (fun st j =>
          match st[i]?, st[j]? with
          | some p1, some p2 =>
            if p1 = p2 then st
            else
              let pr := deoverlapPair p1 p2
              (st.set i pr.1).set j pr.2
          | _, _ => st)
        st)
    panels

/-! ### Merge (`Page.merge_panels`, lines 260-274) -/

/-- The inner loop of `merge_panels` for a fixed outer panel: walk the
suffix, carrying the (re-bound) `p1` and the accumulated `panels_to_remove`
list.  The source's rebinding `p2 = p2.merge(p1)` only rebinds the inner loop
variable and is dropped by the next iteration, so it has no effect. -/
def mergeInner (p1 : Panel) (marks : List Panel) : List Panel → Panel × List Panel
  | [] => (p1, marks)
  | p2 :: rest =>
    if Panel.containsP p1 p2 then mergeInner (Panel.mergeP p1 p2) (marks ++ [p2]) rest
    else if Panel.containsP p2 p1 then mergeInner p1 (marks ++ [p1]) rest
    else mergeInner p1 marks rest

/-- The `panels_to_remove` list accumulated by `merge_panels`. -/
def mergeMarks (panels : List Panel) : List Panel :=
  (List.range panels.length).foldl
    (fun acc i =>
      match panels[i]? with
      | some p1 => (mergeInner p1 acc (panels.drop (i + 1))).2
      | none => acc)
    []

/-- Translation of `Page.merge_panels`: remove one occurrence of every
distinct marked value (`for p in set(panels_to_remove): panels.remove(p)`;
the iteration order over the Python set is unspecified, but removals of
distinct values commute, so first-marked order is used). -/
def mergePanels (panels : List Panel) : List Panel :=
  (mergeMarks panels).dedup.foldl (fun l p => l.erase p) panels

/-! ### Exclude small panels (`Page.exclude_small_panels`, lines 231-234) -/

/-- Translation of `Page.exclude_small_panels`. -/
def excludeSmallPanels (cfg : PageCfg) (panels : List Panel) : List Panel :=
  panels.filter (fun p => !(p.isSmall cfg))

/-! ### Reading order sort (`self.panels.sort()`, line 100) -/

/-- The reading direction. -/
inductive Numbering where
  | ltr
  | rtl
deriving DecidableEq, Repr

/-- Modelled from the spec: two panels count as the "same row" when "their
vertical spans overlap by more than half of the shorter"
(`Panel.__lt__` is not under `src/`). -/
def sameRow (p q : Panel) : Bool :=
  min p.h q.h < 2 * Panel.yOverlap p q

/-- Modelled from the spec: the reading order — "primarily by `y` …; within a
row, by `x` ascending (LTR) or `r` descending (RTL)"
(`Panel.__lt__` is not under `src/`). -/
def readingLE (num : Numbering) (p q : Panel) : Bool :=
  if sameRow p q then
    match num with
    | .ltr => p.x ≤ q.x
    | .rtl => q.r ≤ p.r
  else p.y ≤ q.y

/-- `self.panels.sort()` (line 100). -/
def sortPanels (num : Numbering) (panels : List Panel) : List Panel :=
  panels.mergeSort (readingLE num)

/-! ### Expand (`Page.expand_panels`, lines 300-320) -/

/-- The candidate edge coordinate `newcoord` computed by `expand_panels` for
one panel and one direction: a neighbour's opposite edge plus the gutter, or
the extreme coordinate among all (current) panels; `-1` is the sentinel the
source initialises `newcoord` with, and is what remains in the (unreachable
during the pass) case of an empty panel list. -/
def expandCand (g : Gutters) (panels : List Panel) (p : Panel) (d : Dir) : Int :=
  match findNeighbourPanel panels p d with
  | some n => n.edge d.opposite + g.ofDir d
  | none =>
    match panels with
    | [] => -1
    | q :: qs =>
      match d with
      | .x | .y => qs.foldl (fun acc t => min acc (t.edge d)) (q.edge d)
      | .r | .b => qs.foldl (fun acc t => max acc (t.edge d)) (q.edge d)

/-- The guarded assignment of `expand_panels`: apply the candidate only if it
differs from the sentinel `-1` and moves the edge outward (right/bottom
increase, left/top decrease). -/
def expandApply (g : Gutters) (panels : List Panel) (p : Panel) (d : Dir) : Panel :=
  let newcoord := expandCand g panels p d
  if newcoord ≠ -1 then
    if ((d = Dir.r ∨ d = Dir.b) ∧ p.edge d < newcoord)
        ∨ ((d = Dir.x ∨ d = Dir.y) ∧ newcoord < p.edge d) then
      p.setEdge d newcoord
    else p
  else p

/-- Translation of the `expand_panels` loop: panels are processed in place,
one direction at a time, each update being visible to later searches. -/
def expandPanels (g : Gutters) (panels : List Panel) : List Panel :=
  (List.range panels.length).foldl
    (fun st i =>
      [Dir.x, Dir.y, Dir.r, Dir.b].foldl
        (fun st d =>
          match st[i]? with
          | some p => st.set i (expandApply g st p d)
          | none => st)
        st)
    panels

/-- The whole expansion pass: `actual_gutters` is computed once, before the
loop. -/
def expandPanelsPass (panels : List Panel) : List Panel :=
  expandPanels (actualGutters panels) panels

/-! ### Fallback full-page panel (`Page.__init__`, lines 103-104) -/

/-- Translation of lines 103-104: when no panel is left, append one panel
covering the full image (`xywh = [0, 0, W, H]`). -/
def fallbackFullPage (cfg : PageCfg) (panels : List Panel) : List Panel :=
  if panels.length = 0 then panels ++ [Panel.fromXYWH 0 0 cfg.W cfg.H] else panels

/-! ### Numbering fix (`Page.fix_panels_numbering`, lines 323-341) -/

/-- `l.take n ++ a :: l.drop n`: Python's `list.insert(n, a)` for `n ≤ len`. -/
def listInsertAt (n : Nat) (a : α) (l : List α) : List α :=
  l.take n ++ a :: l.drop n

/-- The `neighbours_before` list of `fix_panels_numbering` (lines 328-329):
the top neighbour, then the right (RTL) or left (LTR) neighbour. -/
def neighboursBefore (num : Numbering) (panels : List Panel) (p : Panel) :
    List (Option Panel) :=
  [findTopPanel panels p,
    match num with
    | .rtl => findRightPanel panels p
    | .ltr => findLeftPanel panels p]

/-- One sweep of `fix_panels_numbering`, parameterised by the
before-neighbour assignment: find the first position `i` whose panel has a
(first, in `neighbours_before` order) neighbour sitting at a strictly later
index, and return that pair of indices. -/
def findMove (nbf : List Panel → Panel → List (Option Panel)) (panels : List Panel) :
    Option (Nat × Nat) :=
  (List.range panels.length).findSome? fun i =>
    match panels[i]? with
    | none => none
    | some p =>
      (nbf panels p).findSome? fun onb =>
        match onb with
        | none => none
        | some q =>
          let j := List.indexOf q panels
          if i < j then some (i, j) else none

/-- `self.panels.insert(neighbour_pos, self.panels.pop(i))` (line 336). -/
def applyMove (panels : List Panel) (i j : Nat) : List Panel :=
  match panels[i]? with
  | none => panels
  | some p => listInsertAt j p (panels.eraseIdx i)

/-- One iteration of the outer `while` loop of `fix_panels_numbering`:
`none` when a full sweep produces no move. -/
def fixStep (nbf : List Panel → Panel → List (Option Panel)) (panels : List Panel) :
    Option (List Panel) :=
  (findMove nbf panels).map fun m => applyMove panels m.1 m.2

/-- The `while changes` loop, with explicit fuel; returns the state reached
when the sweep is clean or the fuel runs out. -/
def fixLoop (nbf : List Panel → Panel → List (Option Panel)) :
    Nat → List Panel → List Panel
  | 0, l => l
  | n + 1, l =>
    match fixStep nbf l with
    | none => l
    | some l' => fixLoop nbf n l'

/-- Translation of `Page.fix_panels_numbering` with the geometric
neighbour searches. -/
def fixPanelsNumbering (num : Numbering) (fuel : Nat) (panels : List Panel) : List Panel :=
  fixLoop (neighboursBefore num) fuel panels

/-- The loop of `fix_panels_numbering` terminates: some number of iterations
reaches a state whose full sweep produces no move. -/
def FixTerminates (nbf : List Panel → Panel → List (Option Panel)) (l : List Panel) : Prop :=
  ∃ n, fixStep nbf (fixLoop nbf n l) = none

/-! ### The tail of the constructor pipeline (`Page.__init__`, lines 98-106) -/

/-- Lines 98-106 of the constructor: the last small-panel exclusion, the
reading-order sort, the expansion pass, the full-page fallback and the
numbering fix. -/
def pipelineTail (cfg : PageCfg) (num : Numbering) (fuel : Nat) (panels : List Panel) :
    List Panel :=
  let kept := excludeSmallPanels cfg panels
  let inOrder := sortPanels num kept
  let expanded := expandPanelsPass inOrder
  let withFallback := fallbackFullPage cfg expanded
  fixPanelsNumbering num fuel withFallback

/-! ### Grouping of small panels (`Page.group_small_panels`, lines 158-206) -/

/-- All ordered pairs `(p1, p2)` with `p2` in the suffix after `p1`, in the
order the double loop of `group_small_panels` visits them. -/
def allPairs : List α → List (α × α)
  | [] => []
  | a :: as => as.map (fun b => (a, b)) ++ allPairs as

/-- Lookup in the `groups` dictionary (keys are compared by panel value, as
Python hashes the value-equal `Panel`s together). -/
def glookup (groups : List (Panel × Nat)) (p : Panel) : Option Nat :=
  (groups.find? fun e => e.1 = p).map (·.2)

/-- The assignment `groups[p] = g` on the insertion-ordered association list:
Python dict assignment to an existing key updates the value in place and keeps
the key's position. -/
def gupdate (groups : List (Panel × Nat)) (p : Panel) (g : Nat) : List (Panel × Nat) :=
  groups.map fun e => if e.1 = p then (e.1, g) else e

/-- The merge loop of `group_small_panels` (lines 181-183):
`for p, id in groups.items(): if id == groups[p2]: groups[p] = groups[p1]`.
The loop runs over the live dict view, so the key sequence is the insertion
order, `id` is the value of `groups[p]` at visit time, and `groups[p2]` and
`groups[p1]` are re-read from the current dictionary at every step.  In
particular, once the entry of `p2` itself has been reassigned, the remaining
entries of its old group no longer match the test and keep their old id. -/
def mergeGroups (p1 p2 : Panel) (groups : List (Panel × Nat)) : List (Panel × Nat) :=
  (groups.map Prod.fst).foldl
    (fun acc p =>
      match glookup acc p, glookup acc p1, glookup acc p2 with
      | some id, some gc1, some gc2 => if id = gc2 then gupdate acc p gc1 else acc
      | _, _, _ => acc)
    groups

/-- The body of the pair loop of `group_small_panels`: skip value-equal or
non-close pairs; otherwise create a fresh group, join the existing one, or run
the merge loop over the dictionary. The dictionary is an insertion-ordered
association list, as in Python. -/
def gspStep (close : Panel → Panel → Bool) (st : List (Panel × Nat) × Nat)
    (pr : Panel × Panel) : List (Panel × Nat) × Nat :=
  let groups := st.1
  let gid := st.2
  if pr.1 = pr.2 then st
  else if !close pr.1 pr.2 then st
  else
    match glookup groups pr.1, glookup groups pr.2 with
    | none, none => (groups ++ [(pr.1, gid + 1), (pr.2, gid + 1)], gid + 1)
    | some g1, none => (groups ++ [(pr.2, g1)], gid)
    | none, some g2 => (groups ++ [(pr.1, g2)], gid)
    | some g1, some g2 =>
      if g1 ≠ g2 then (mergeGroups pr.1 pr.2 groups, gid)
      else st

/-- The `grouped` dictionary: group ids in first-appearance order, each with
the list of its member panels in dictionary order. -/
def collectGroups (groups : List (Panel × Nat)) : List (Nat × List Panel) :=
  groups.foldl
    (fun acc e =>
      if acc.any fun g => g.1 = e.2 then
        acc.map fun g => if g.1 = e.2 then (g.1, g.2 ++ [e.1]) else g
      else acc ++ [(e.2, [e.1])])
    []

/-- The big panel built from one group:
`Panel.from_xyrb(min x, min y, max r, max b)` over the group members (the
group lists produced by the pass are never empty). -/
def groupBBox : List Panel → Panel
  | [] => ⟨0, 0, 0, 0⟩
  | p :: ps =>
    ⟨ps.foldl (fun a q => min a q.x) p.x, ps.foldl (fun a q => min a q.y) p.y,
      ps.foldl (fun a q => max a q.r) p.r, ps.foldl (fun a q => max a q.b) p.b⟩

/-- Append one group's big panel and remove each member
(`self.panels.remove(p)` removes the first value-equal occurrence). -/
def gspApply (st : List Panel) (grp : List Panel) : List Panel :=
  grp.foldl (fun l p => l.erase p) (st ++ [groupBBox grp])

/-- Translation of `Page.group_small_panels`: filter the currently-small
panels, run the pair loop to build the `groups` dictionary, collect the
groups, and replace each group's members by its big panel. -/
def groupSmallPanels (cfg : PageCfg) (panels : List Panel) : List Panel :=
  let small := panels.filter (Panel.isSmall cfg)
  let st := (allPairs small).foldl (gspStep (Panel.isClose cfg)) ([], 0)
  (collectGroups st.1).foldl (fun l g => gspApply l g.2) panels

/-- `q` is `p` with every edge moved only outward: left/top not increased,
right/bottom not decreased (the relation `expand_panels` is claimed to keep
between a panel before and after the pass). -/
def EdgeOutward (p q : Panel) : Prop :=
  q.x ≤ p.x ∧ q.y ≤ p.y ∧ p.r ≤ q.r ∧ p.b ≤ q.b

/-- The spec's §4.10 horizontal gap collection, stated directly: the gap to
the left neighbour for every panel that has one. -/
def specGapsX (panels : List Panel) : List Int :=
  panels.filterMap fun p => (findLeftPanel panels p).map fun lp => p.x - lp.r

/-- The spec's §4.10 vertical gap collection. -/
def specGapsY (panels : List Panel) : List Int :=
  panels.filterMap fun p => (findTopPanel panels p).map fun tp => p.y - tp.b

/-- The spec's §4.10 aggregation: "Report the minimum of each list; if a
list is empty, use 1". -/
def specMinGutter (gaps : List Int) : Int :=
  if gaps = [] then 1 else pyMin gaps

/-! ### Arbitrary before-neighbour assignments and the termination measure
(`Page.fix_panels_numbering`, C4) -/

/-- The `neighbours_before` list induced by a fixed assignment of a
top-neighbour and a left/right-neighbour to every panel (the claim
quantifies over such assignments). -/
def nbfOfMaps (nbT nbS : Panel → Option Panel) : List Panel → Panel → List (Option Panel) :=
  fun _ p => [nbT p, nbS p]

/-- First cyclic-assignment panel. -/
def cycPanelA : Panel := ⟨0, 0, 2, 2⟩

/-- Second cyclic-assignment panel. -/
def cycPanelB : Panel := ⟨10, 10, 12, 12⟩

/-- A cyclic top-neighbour assignment: each of the two panels is the other's
before-neighbour. -/
def cycNbT (p : Panel) : Option Panel :=
  if p = cycPanelA then some cycPanelB
  else if p = cycPanelB then some cycPanelA
  else none

/-- The empty side-neighbour assignment. -/
def cycNbS (_p : Panel) : Option Panel := none

/-- The least rank value in a panel list (`0` for the empty list), for a rank
function `σ`. -/
def sigMin (σ : Panel → Nat) : List Panel → Nat
  | [] => 0
  | p :: ps => ps.foldl (fun a q => min a (σ q)) (σ p)

/-- The first index of a panel of least rank. -/
def sigMinIdx (σ : Panel → Nat) (l : List Panel) : Nat :=
  l.findIdx fun p => σ p = sigMin σ l

/-- Fuel-indexed form of the prefix-window measure (any fuel at least the
list length computes the measure). -/
def fixMeasureAux (σ : Panel → Nat) : Nat → List Panel → Nat
  | 0, _ => 0
  | fuel + 1, l =>
    match l with
    | [] => 0
    | _ :: _ =>
      let i := sigMinIdx σ l
      i * Nat.factorial i + fixMeasureAux σ fuel (l.take i)

/-- The prefix-window measure of a list: `i · i!` for the first minimal-rank
position `i`, plus recursively the measure of the window before it.  A move
that pops the front panel and re-inserts it after a panel of smaller rank
strictly decreases it. -/
def fixMeasure (σ : Panel → Nat) (l : List Panel) : Nat :=
  fixMeasureAux σ l.length l

/-- The global termination measure of the `fix_panels_numbering` loop: the
lexicographic pair of the first-move position (which never decreases) and the
prefix-window measure of the suffix from it, packed into one natural
number. -/
def fixGlobalMeasure (nbf : List Panel → Panel → List (Option Panel)) (σ : Panel → Nat)
    (l : List Panel) : Nat :=
  match findMove nbf l with
  | none => 0
  | some m => (l.length - m.1) * (Nat.factorial l.length + 1) + fixMeasure σ (l.drop m.1)

/-- Position `k` of the list is clean for the fixed assignment: every
assigned before-neighbour of the panel there already sits at an index at most
`k`. -/
def CleanAt (nbT nbS : Panel → Option Panel) (l : List Panel) (k : Nat) : Prop :=
  ∀ p, l[k]? = some p →
    (∀ q, nbT p = some q → List.indexOf q l ≤ k) ∧
    (∀ q, nbS p = some q → List.indexOf q l ≤ k)

/-! ### Spec-side view of `group_small_panels` (spec §4.4, C2) -/

/-- The currently-small panels of a list. -/
def smallOf (cfg : PageCfg) (panels : List Panel) : List Panel :=
  panels.filter (Panel.isSmall cfg)

/-- A small panel that is close to some other small panel (its "close"-graph
component has size at least two). -/
def nonIsolated (cfg : PageCfg) (small : List Panel) (p : Panel) : Bool :=
  small.any fun q => q ≠ p && Panel.isClose cfg p q

/-- One expansion step of the spec-side reachability computation: all small
panels close to the current set. -/
def closeNbrs (cfg : PageCfg) (small : List Panel) (s : Finset Panel) : Finset Panel :=
  (small.filter fun q => decide (∃ p ∈ s, Panel.isClose cfg p q = true)).toFinset

/-- Add the close neighbours of the current set. -/
def closeStep (cfg : PageCfg) (small : List Panel) (s : Finset Panel) : Finset Panel :=
  s ∪ closeNbrs cfg small s

/-- The "close"-graph component of `p` among the small panels, computed by
saturating the one-step expansion (the number of small panels bounds the
iterations needed). -/
def reachClose (cfg : PageCfg) (small : List Panel) (p : Panel) : Finset Panel :=
  (closeStep cfg small)^[small.length] {p}

/-- The tight bounding box of `p`'s component. -/
def compBBox (cfg : PageCfg) (small : List Panel) (p : Panel) : Panel :=
  ⟨(reachClose cfg small p).fold min p.x Panel.x,
    (reachClose cfg small p).fold min p.y Panel.y,
    (reachClose cfg small p).fold max p.r Panel.r,
    (reachClose cfg small p).fold max p.b Panel.b⟩

/-- The panel set the spec prescribes for `group_small_panels`: the non-small
panels, the small panels whose component is a singleton, and one tight
bounding box per component of size at least two. -/
def specGSP (cfg : PageCfg) (panels : List Panel) : Finset Panel :=
  (panels.filter fun p => !(Panel.isSmall cfg p)).toFinset
    ∪ ((smallOf cfg panels).filter fun p =>
        !(nonIsolated cfg (smallOf cfg panels) p)).toFinset
    ∪ ((smallOf cfg panels).filter fun p =>
        nonIsolated cfg (smallOf cfg panels) p).toFinset.image
        (compBBox cfg (smallOf cfg panels))

/-- Configuration of the C2 counterexample. -/
def cexCfg : PageCfg := ⟨100, 100, 1/15⟩

/-- First counterexample panel (small). -/
def cexA : Panel := ⟨0, 0, 5, 5⟩

/-- Second counterexample panel (small, close to the first). -/
def cexB : Panel := ⟨7, 0, 12, 5⟩

/-- First panel of the merge-loop divergence trace: five aligned small panels
at x = 0, 12, 24, 36, 48, each 5 wide and 5 tall, so consecutive panels are 7
apart (close, as 7 ≤ S/10 = 10) and non-consecutive ones 19 apart (not close):
the "close" graph is a single five-panel chain. -/
def gspZ : Panel := ⟨0, 0, 5, 5⟩

/-- Divergence-trace panel at x = 12. -/
def gspX : Panel := ⟨12, 0, 17, 5⟩

/-- Divergence-trace panel at x = 24. -/
def gspY : Panel := ⟨24, 0, 29, 5⟩

/-- Divergence-trace panel at x = 36. -/
def gspW : Panel := ⟨36, 0, 41, 5⟩

/-- Divergence-trace panel at x = 48. -/
def gspA : Panel := ⟨48, 0, 53, 5⟩

/-- The divergence input order: the pair loop first builds the group
{12, 24, 0} (with 0 inserted after 24), then the group {48, 36}, and merges
the two at the pair (36, 24); the merge loop relabels the entries of 24's
group up to 24 itself and strands the panel at 0. -/
def gspInput : List Panel := [gspX, gspA, gspW, gspY, gspZ]

/-- The same five panels in reading order, where the pair loop never needs a
merge and all five end up in one group. -/
def gspSorted : List Panel := [gspZ, gspX, gspY, gspW, gspA]

/-! ## Theorems -/

/-! ### Basic geometry lemmas -/

namespace Panel

theorem isClose_symm (cfg : PageCfg) (p q : Panel) :
    isClose cfg p q = isClose cfg q p := by
  simp only [isClose, yOverlap, xOverlap, max_comm (p.x - q.r), max_comm (p.y - q.b),
    min_comm p.b, max_comm p.y, min_comm p.r, max_comm p.x]

theorem overlapPanel_symm (p q o : Panel) (h : overlapPanel p q = some o) :
    overlapPanel q p = some o := by
  unfold overlapPanel at h ⊢
  rw [max_comm q.x p.x, max_comm q.y p.y, min_comm q.r p.r, min_comm q.b p.b]
  exact h

theorem overlapPanel_eq (p q o : Panel) (h : overlapPanel p q = some o) :
    o = ⟨max p.x q.x, max p.y q.y, min p.r q.r, min p.b q.b⟩ := by
  simp only [overlapPanel] at h
  split at h
  · exact (Option.some.inj h).symm
  · exact absurd h (Option.noConfusion)

theorem containsP_refl (p : Panel) : containsP p p = true := by
  simp [containsP]

theorem containsP_antisymm {p q : Panel} (h1 : containsP p q = true)
    (h2 : containsP q p = true) : p = q := by
  simp only [containsP, Bool.and_eq_true, decide_eq_true_eq] at h1 h2
  obtain ⟨⟨⟨a1, a2⟩, a3⟩, a4⟩ := h1
  obtain ⟨⟨⟨b1, b2⟩, b3⟩, b4⟩ := h2
  cases p; cases q
  simp_all only [Panel.mk.injEq]
  omega

theorem mergeP_eq_of_containsP {p q : Panel} (h : containsP p q = true) :
    mergeP p q = p := by
  simp only [containsP, Bool.and_eq_true, decide_eq_true_eq] at h
  obtain ⟨⟨⟨a1, a2⟩, a3⟩, a4⟩ := h
  simp only [mergeP, min_eq_left a1, min_eq_left a3, max_eq_left a2, max_eq_left a4]

end Panel

/-! ### Fix-numbering on a singleton list -/

theorem fixStep_singleton (num : Numbering) (p : Panel) :
    fixStep (neighboursBefore num) [p] = none := by
  have hfilt : ∀ f : Panel → Bool, List.filter (fun q => decide (q ≠ p) && f q) [p] = [] := by
    intro f
    simp [List.filter]
  cases num <;>
    simp [fixStep, findMove, neighboursBefore, findTopPanel, findLeftPanel, findRightPanel,
      pickBest, List.findSome?, List.range_succ, hfilt]

theorem fixLoop_singleton (num : Numbering) (fuel : Nat) (p : Panel) :
    fixLoop (neighboursBefore num) fuel [p] = [p] := by
  cases fuel with
  | zero => rfl
  | succ n => simp [fixLoop, fixStep_singleton]

/-- **C1.** The spec says an omitted (`None`) `numbering` argument defaults to
`"ltr"` and construction succeeds.  The code stores the `"ltr"` default but
then tests the *original* argument for membership in `['ltr', 'rtl']`, so an
omitted argument raises the fatal unknown-numbering error: the code
contradicts its own default assignment on the preceding line. -/
theorem initNumbering_none_raises :
    initNumbering none = Except.error InitError.unknownNumbering ∧
      defaultedNumbering none = ltrStr :=
  ⟨rfl, rfl⟩

/-- **C9.** If the panels list is empty after the expansion pass, the
pipeline tail inserts exactly one panel covering the full image
(`x = 0`, `y = 0`, width `W`, height `H`) and finishes normally with that
single panel (the numbering fix leaves a singleton untouched, and no error
path exists: all stages are total). -/
theorem fallback_inserts_full_page (cfg : PageCfg) (num : Numbering) (fuel : Nat)
    (panels : List Panel)
    (h : expandPanelsPass (sortPanels num (excludeSmallPanels cfg panels)) = []) :
    pipelineTail cfg num fuel panels = [Panel.fromXYWH 0 0 cfg.W cfg.H] := by
  simp only [pipelineTail, h, fallbackFullPage, List.length_nil, List.nil_append, if_pos rfl]
  exact fixLoop_singleton num fuel _

/-- Witness for **C9** at a concrete empty detection result. -/
theorem fallback_inserts_full_page_witness :
    expandPanelsPass (sortPanels Numbering.ltr (excludeSmallPanels ⟨100, 100, 1/15⟩ [])) = [] ∧
      pipelineTail ⟨100, 100, 1/15⟩ Numbering.ltr 3 [] = [Panel.fromXYWH 0 0 100 100] := by
  have h : expandPanelsPass (sortPanels Numbering.ltr
      (excludeSmallPanels ⟨100, 100, 1/15⟩ [])) = [] := by
    simp [expandPanelsPass, expandPanels, sortPanels, excludeSmallPanels]
  exact ⟨h, fallback_inserts_full_page ⟨100, 100, 1/15⟩ Numbering.ltr 3 [] h⟩

/-- **C10.** In `expand_panels`, a candidate edge coordinate equal to the
sentinel `-1` is never applied: the panel keeps its edge, even when moving
the edge to `-1` would be an outward move (the statement has no outwardness
precondition, so it covers that case). -/
theorem expand_sentinel_skipped (g : Gutters) (panels : List Panel) (p : Panel) (d : Dir)
    (h : expandCand g panels p d = -1) : expandApply g panels p d = p := by
  simp [expandApply, h]

/-- Witness for **C10**: a concrete state where the candidate is `-1` and
would be an outward move for the left edge, yet the panel is unchanged. -/
theorem expand_sentinel_skipped_witness :
    expandCand ⟨1, 1, -1, -1⟩ [⟨0, 0, 10, 10⟩, ⟨-1, 20, 5, 30⟩] ⟨0, 0, 10, 10⟩ Dir.x = -1 ∧
      (-1 : Int) < Panel.edge ⟨0, 0, 10, 10⟩ Dir.x ∧
      expandApply ⟨1, 1, -1, -1⟩ [⟨0, 0, 10, 10⟩, ⟨-1, 20, 5, 30⟩] ⟨0, 0, 10, 10⟩ Dir.x
        = ⟨0, 0, 10, 10⟩ :=
  ⟨by decide, by decide,
    expand_sentinel_skipped ⟨1, 1, -1, -1⟩ [⟨0, 0, 10, 10⟩, ⟨-1, 20, 5, 30⟩] ⟨0, 0, 10, 10⟩
      Dir.x (by decide)⟩

/-- **C3.** For distinct panels with a non-empty overlap rectangle `o`: when
`o` is wider than tall, the ordered-pair body fires for whichever operand
shares `o`'s bottom edge, reducing its `b` to `o.y` and raising the other's
`y` to `o.b`; when `o` is taller than wide, the left/right edges are adjusted
symmetrically for whichever operand shares `o`'s right edge. -/
theorem deoverlap_pair_adjusts (p1 p2 o : Panel) (hne : p1 ≠ p2)
    (hov : Panel.overlapPanel p1 p2 = some o) :
    (o.h < o.w →
      (p1.b = o.b → deoverlapPair p1 p2 = ({ p1 with b := o.y }, { p2 with y := o.b })) ∧
      (p1.b ≠ o.b → deoverlapPair p2 p1 = ({ p2 with b := o.y }, { p1 with y := o.b }))) ∧
    (o.w < o.h →
      (p1.r = o.r → deoverlapPair p1 p2 = ({ p1 with r := o.x }, { p2 with x := o.r })) ∧
      (p1.r ≠ o.r → deoverlapPair p2 p1 = ({ p2 with r := o.x }, { p1 with x := o.r }))) := by
  clear hne
  have ho := Panel.overlapPanel_eq p1 p2 o hov
  have hov' := Panel.overlapPanel_symm p1 p2 o hov
  constructor
  · intro hwt
    constructor
    · intro hb
      simp only [deoverlapPair, hov]
      rw [if_neg fun hc => lt_asymm hwt hc.1, if_pos ⟨hwt, hb⟩]
    · intro hb
      have hb2 : p2.b = o.b := by
        have : o.b = min p1.b p2.b := by rw [ho]
        omega
      simp only [deoverlapPair, hov']
      rw [if_neg fun hc => lt_asymm hwt hc.1, if_pos ⟨hwt, hb2⟩]
  · intro htw
    constructor
    · intro hr
      simp only [deoverlapPair, hov]
      rw [if_pos ⟨htw, hr⟩]
    · intro hr
      have hr2 : p2.r = o.r := by
        have : o.r = min p1.r p2.r := by rw [ho]
        omega
      simp only [deoverlapPair, hov']
      rw [if_pos ⟨htw, hr2⟩]

/-- Witness for **C3** on a concrete wider-than-tall overlap. -/
theorem deoverlap_pair_adjusts_witness :
    deoverlapPair ⟨0, 0, 10, 10⟩ ⟨0, 8, 10, 20⟩ = (⟨0, 0, 10, 8⟩, ⟨0, 10, 10, 20⟩) :=
  ((deoverlap_pair_adjusts ⟨0, 0, 10, 10⟩ ⟨0, 8, 10, 20⟩ ⟨0, 8, 10, 10⟩ (by decide)
    (by decide)).1 (by decide)).1 (by decide)

/-! ### Expansion moves edges only outward -/

theorem edgeOutward_refl (p : Panel) : EdgeOutward p p :=
  ⟨le_refl _, le_refl _, le_refl _, le_refl _⟩

theorem edgeOutward_trans {p q s : Panel} (h1 : EdgeOutward p q) (h2 : EdgeOutward q s) :
    EdgeOutward p s :=
  ⟨le_trans h2.1 h1.1, le_trans h2.2.1 h1.2.1, le_trans h1.2.2.1 h2.2.2.1,
    le_trans h1.2.2.2 h2.2.2.2⟩

theorem expandApply_outward (g : Gutters) (st : List Panel) (p : Panel) (d : Dir) :
    EdgeOutward p (expandApply g st p d) := by
  simp only [expandApply]
  split
  · split
    · rename_i hg
      cases d <;>
        rcases hg with ⟨hd | hd, hlt⟩ | ⟨hd | hd, hlt⟩ <;>
          first
            | exact absurd hd (by decide)
            | (simp only [Panel.edge] at hlt
               refine ⟨?_, ?_, ?_, ?_⟩ <;> simp [Panel.setEdge] <;> omega)
    · exact edgeOutward_refl p
  · exact edgeOutward_refl p

/-- Invariant preservation through a `foldl`. -/
theorem foldlPreserve {α β : Type} {P : β → Prop} (f : β → α → β)
    (h : ∀ b a, P b → P (f b a)) : ∀ (l : List α) (b : β), P b → P (l.foldl f b) := by
  intro l
  induction l with
  | nil => intro b hb; exact hb
  | cons a as ih => intro b hb; exact ih (f b a) (h b a hb)

theorem forall₂_outward_set {panels st : List Panel} {i : Nat} {p q : Panel}
    (hf : List.Forall₂ EdgeOutward panels st) (hp : st[i]? = some p)
    (hq : EdgeOutward p q) : List.Forall₂ EdgeOutward panels (st.set i q) := by
  rw [List.forall₂_iff_get] at hf ⊢
  obtain ⟨hl, hget⟩ := hf
  refine ⟨by rw [hl, List.length_set], ?_⟩
  intro k h1 h2
  rw [List.length_set] at h2
  have hk := hget k h1 h2
  simp only [List.get_eq_getElem] at hk ⊢
  rw [List.getElem_set]
  split
  · rename_i hik
    subst hik
    have : st[i] = p := by
      have := List.getElem?_eq_getElem h2
      rw [hp] at this
      exact (Option.some.inj this).symm
    rw [this] at hk
    exact edgeOutward_trans hk hq
  · exact hk

theorem expandPanels_edgeOutward (g : Gutters) (panels : List Panel) :
    List.Forall₂ EdgeOutward panels (expandPanels g panels) := by
  unfold expandPanels
  refine foldlPreserve _ ?_ _ _ (List.forall₂_same.mpr fun p _ => edgeOutward_refl p)
  intro st i hst
  refine foldlPreserve _ ?_ _ _ hst
  intro st' d hst'
  cases hp : st'[i]? with
  | none => simpa [hp] using hst'
  | some p =>
    simp only [hp]
    exact forall₂_outward_set hst' hp (expandApply_outward g st' p d)

/-- **C6.** `expand_panels` never moves an edge inward: the output list is
pointwise related to the input list (same length, same positions) by
"left/top not increased, right/bottom not decreased". -/
theorem expand_panels_outward (g : Gutters) (panels : List Panel) :
    List.Forall₂ (fun p q => q.x ≤ p.x ∧ q.y ≤ p.y ∧ p.r ≤ q.r ∧ p.b ≤ q.b)
      panels (expandPanels g panels) :=
  (expandPanels_edgeOutward g panels).imp fun {a b} h => h

/-! ### Gutter reporting -/

theorem foldl_gap_filterMap (g : Panel → Option Panel) (hf : Panel → Panel → Int) :
    ∀ (l : List Panel) (acc : List Int),
      l.foldl (fun a p => match g p with | some lp => a ++ [hf p lp] | none => a) acc
        = acc ++ l.filterMap (fun p => (g p).map fun lp => hf p lp) := by
  intro l
  induction l with
  | nil => intro acc; simp
  | cons p ps ih =>
    intro acc
    cases hg : g p with
    | none => simp [List.foldl_cons, hg, List.filterMap_cons, ih]
    | some lp => simp [List.foldl_cons, hg, List.filterMap_cons, ih]

theorem pyMin_defaulted (l : List Int) :
    pyMin (if l = [] then [1] else l) = specMinGutter l := by
  unfold specMinGutter
  split <;> rfl

/-- **C8.** The public `gutters` field equals `[gx, gy]` where `gx` is the
minimum over the panels of the horizontal gap to the left neighbour and `gy`
the minimum of the vertical gap to the top neighbour, each defaulting to `1`
when no panel has such a neighbour; and `actual_gutters` also exports the
negated minima under the keys `r` and `b`. -/
theorem gutters_report (panels : List Panel) :
    getInfosGutters panels
        = [specMinGutter (specGapsX panels), specMinGutter (specGapsY panels)] ∧
      (actualGutters panels).r = -(specMinGutter (specGapsX panels)) ∧
      (actualGutters panels).b = -(specMinGutter (specGapsY panels)) := by
  have hag : actualGutters panels =
      ⟨specMinGutter (specGapsX panels), specMinGutter (specGapsY panels),
        -(specMinGutter (specGapsX panels)), -(specMinGutter (specGapsY panels))⟩ := by
    simp only [actualGutters, foldl_gap_filterMap, List.nil_append]
    rw [show (panels.filterMap fun p => (findLeftPanel panels p).map fun lp => p.x - lp.r)
        = specGapsX panels from rfl,
      show (panels.filterMap fun p => (findTopPanel panels p).map fun tp => p.y - tp.b)
        = specGapsY panels from rfl, pyMin_defaulted, pyMin_defaulted]
  rw [getInfosGutters, hag]
  exact ⟨rfl, rfl, rfl⟩

/-! ### Merge panels (C7) -/

/-- **C7 counterexample.** With a duplicated contained panel the set-based
removal deletes only one occurrence per distinct value, so the output still
has a panel fully containing another distinct panel: the one-pass containment
fixed point fails on inputs with duplicates. -/
theorem merge_panels_counterexample :
    mergePanels [⟨0, 0, 10, 10⟩, ⟨1, 1, 5, 5⟩, ⟨1, 1, 5, 5⟩]
        = [⟨0, 0, 10, 10⟩, ⟨1, 1, 5, 5⟩] ∧
      (⟨0, 0, 10, 10⟩ : Panel) ∈ mergePanels [⟨0, 0, 10, 10⟩, ⟨1, 1, 5, 5⟩, ⟨1, 1, 5, 5⟩] ∧
      (⟨1, 1, 5, 5⟩ : Panel) ∈ mergePanels [⟨0, 0, 10, 10⟩, ⟨1, 1, 5, 5⟩, ⟨1, 1, 5, 5⟩] ∧
      (⟨0, 0, 10, 10⟩ : Panel) ≠ ⟨1, 1, 5, 5⟩ ∧
      Panel.containsP ⟨0, 0, 10, 10⟩ ⟨1, 1, 5, 5⟩ = true := by decide

theorem mergeInner_fst (p1 : Panel) (marks : List Panel) (rest : List Panel) :
    (mergeInner p1 marks rest).1 = p1 := by
  induction rest generalizing p1 marks with
  | nil => rfl
  | cons p2 ps ih =>
    unfold mergeInner
    split
    · rename_i hc
      rw [Panel.mergeP_eq_of_containsP hc]
      exact ih p1 (marks ++ [p2])
    · split
      · exact ih p1 (marks ++ [p1])
      · exact ih p1 marks

theorem mem_mergeInner (v p1 : Panel) (marks rest : List Panel) :
    v ∈ (mergeInner p1 marks rest).2 ↔
      v ∈ marks ∨ ∃ p2 ∈ rest,
        (Panel.containsP p1 p2 = true ∧ v = p2) ∨
          (Panel.containsP p1 p2 = false ∧ Panel.containsP p2 p1 = true ∧ v = p1) := by
  induction rest generalizing p1 marks with
  | nil => simp [mergeInner]
  | cons p2 ps ih =>
    unfold mergeInner
    split
    · rename_i hc
      rw [Panel.mergeP_eq_of_containsP hc, ih]
      simp only [List.mem_append, List.mem_cons, List.not_mem_nil, or_false]
      constructor
      · rintro ((hv | hv) | ⟨q, hq, hcase⟩)
        · exact Or.inl hv
        · exact Or.inr ⟨p2, Or.inl rfl, Or.inl ⟨hc, hv⟩⟩
        · exact Or.inr ⟨q, Or.inr hq, hcase⟩
      · rintro (hv | ⟨q, hq | hq, hcase⟩)
        · exact Or.inl (Or.inl hv)
        · subst hq
          rcases hcase with ⟨-, hv⟩ | ⟨hnc, -, -⟩
          · exact Or.inl (Or.inr hv)
          · rw [hc] at hnc
            exact absurd hnc (by simp)
        · exact Or.inr ⟨q, hq, hcase⟩
    · rename_i hnc
      have hnc' : Panel.containsP p1 p2 = false := by
        revert hnc
        cases Panel.containsP p1 p2 <;> simp
      split
      · rename_i hc2
        rw [ih]
        simp only [List.mem_append, List.mem_cons, List.not_mem_nil, or_false]
        constructor
        · rintro ((hv | hv) | ⟨q, hq, hcase⟩)
          · exact Or.inl hv
          · exact Or.inr ⟨p2, Or.inl rfl, Or.inr ⟨hnc', hc2, hv⟩⟩
          · exact Or.inr ⟨q, Or.inr hq, hcase⟩
        · rintro (hv | ⟨q, hq | hq, hcase⟩)
          · exact Or.inl (Or.inl hv)
          · subst hq
            rcases hcase with ⟨hcq, -⟩ | ⟨-, -, hv⟩
            · rw [hnc'] at hcq
              exact absurd hcq (by simp)
            · exact Or.inl (Or.inr hv)
          · exact Or.inr ⟨q, hq, hcase⟩
      · rename_i hnc2
        have hnc2' : Panel.containsP p2 p1 = false := by
          revert hnc2
          cases Panel.containsP p2 p1 <;> simp
        rw [ih]
        simp only [List.mem_cons]
        constructor
        · rintro (hv | ⟨q, hq, hcase⟩)
          · exact Or.inl hv
          · exact Or.inr ⟨q, Or.inr hq, hcase⟩
        · rintro (hv | ⟨q, hq | hq, hcase⟩)
          · exact Or.inl hv
          · subst hq
            rcases hcase with ⟨hcq, -⟩ | ⟨-, hcq, -⟩
            · rw [hnc'] at hcq
              exact absurd hcq (by simp)
            · rw [hnc2'] at hcq
              exact absurd hcq (by simp)
          · exact Or.inr ⟨q, hq, hcase⟩

theorem mem_foldl_accum {α β : Type} {C : α → β → Prop} (f : List β → α → List β)
    (hf : ∀ acc i v, v ∈ f acc i ↔ v ∈ acc ∨ C i v) (l : List α) :
    ∀ (acc : List β) (v : β), v ∈ l.foldl f acc ↔ v ∈ acc ∨ ∃ i ∈ l, C i v := by
  induction l with
  | nil => intro acc v; simp
  | cons a as ih =>
    intro acc v
    rw [List.foldl_cons, ih, hf]
    simp only [List.mem_cons]
    constructor
    · rintro ((hv | hv) | ⟨i, hi, hc⟩)
      · exact Or.inl hv
      · exact Or.inr ⟨a, Or.inl rfl, hv⟩
      · exact Or.inr ⟨i, Or.inr hi, hc⟩
    · rintro (hv | ⟨i, rfl | hi, hc⟩)
      · exact Or.inl (Or.inl hv)
      · exact Or.inl (Or.inr hc)
      · exact Or.inr ⟨i, hi, hc⟩

theorem mem_mergeMarks (panels : List Panel) (v : Panel) :
    v ∈ mergeMarks panels ↔ ∃ i, ∃ hi : i < panels.length, ∃ p2 ∈ panels.drop (i + 1),
      ((Panel.containsP (panels.get ⟨i, hi⟩) p2 = true ∧ v = p2) ∨
        (Panel.containsP (panels.get ⟨i, hi⟩) p2 = false ∧
          Panel.containsP p2 (panels.get ⟨i, hi⟩) = true ∧ v = panels.get ⟨i, hi⟩)) := by
  unfold mergeMarks
  rw [mem_foldl_accum
    (C := fun i v => ∃ hi : i < panels.length, ∃ p2 ∈ panels.drop (i + 1),
      ((Panel.containsP (panels.get ⟨i, hi⟩) p2 = true ∧ v = p2) ∨
        (Panel.containsP (panels.get ⟨i, hi⟩) p2 = false ∧
          Panel.containsP p2 (panels.get ⟨i, hi⟩) = true ∧ v = panels.get ⟨i, hi⟩)))]
  · simp only [List.not_mem_nil, false_or, List.mem_range]
    constructor
    · rintro ⟨i, hilt, hi, rest⟩
      exact ⟨i, hi, rest⟩
    · rintro ⟨i, hi, rest⟩
      exact ⟨i, hi, hi, rest⟩
  · intro acc i w
    cases h : panels[i]? with
    | none =>
      have hge := List.getElem?_eq_none_iff.mp h
      simp only [h]
      constructor
      · exact fun hw => Or.inl hw
      · rintro (hw | ⟨hi, -⟩)
        · exact hw
        · omega
    | some p1 =>
      have hilt : i < panels.length := by
        by_contra hc
        rw [List.getElem?_eq_none_iff.mpr (by omega)] at h
        exact Option.noConfusion h
      have hp1 : panels.get ⟨i, hilt⟩ = p1 := by
        have := List.getElem?_eq_getElem hilt
        rw [h] at this
        exact (Option.some.inj this).symm
      simp only [h, mem_mergeInner]
      constructor
      · rintro (hw | hrest)
        · exact Or.inl hw
        · exact Or.inr ⟨hilt, by rw [hp1]; exact hrest⟩
      · rintro (hw | ⟨hi, hrest⟩)
        · exact Or.inl hw
        · refine Or.inr ?_
          rw [← hp1]
          exact hrest

theorem foldl_erase_sublist (ms : List Panel) :
    ∀ l : List Panel, (ms.foldl (fun l p => l.erase p) l).Sublist l := by
  induction ms with
  | nil => intro l; exact List.Sublist.refl l
  | cons m msr ih =>
    intro l
    exact List.Sublist.trans (ih (l.erase m)) (List.erase_sublist m l)

theorem mem_foldl_erase (ms : List Panel) :
    ∀ (l : List Panel), l.Nodup → ∀ v : Panel,
      (v ∈ ms.foldl (fun l p => l.erase p) l ↔ v ∈ l ∧ v ∉ ms) := by
  induction ms with
  | nil => intro l _ v; simp
  | cons m msr ih =>
    intro l hnd v
    rw [List.foldl_cons, ih (l.erase m) (hnd.erase m), hnd.mem_erase_iff]
    simp only [List.mem_cons]
    constructor
    · rintro ⟨⟨hvm, hvl⟩, hvms⟩
      exact ⟨hvl, by rintro (h | h); exacts [hvm h, hvms h]⟩
    · rintro ⟨hvl, hnot⟩
      exact ⟨⟨fun h => hnot (Or.inl h), hvl⟩, fun h => hnot (Or.inr h)⟩

theorem mem_mergePanels {panels : List Panel} (hnd : panels.Nodup) (v : Panel) :
    v ∈ mergePanels panels ↔ v ∈ panels ∧ v ∉ mergeMarks panels := by
  unfold mergePanels
  rw [mem_foldl_erase _ panels hnd v, List.mem_dedup]

theorem getElem_mem_drop {l : List Panel} {i j : Nat} (hj : j < l.length) (hij : i < j) :
    l[j] ∈ l.drop (i + 1) := by
  have hk : j - (i + 1) < (l.drop (i + 1)).length := by
    rw [List.length_drop]
    omega
  have he : (l.drop (i + 1))[j - (i + 1)] = l[j] := by
    rw [List.getElem_drop]
    congr 1
    omega
  rw [← he]
  exact List.getElem_mem hk

theorem mem_drop_getElem {l : List Panel} {i : Nat} {p : Panel} (h : p ∈ l.drop (i + 1)) :
    ∃ j, ∃ hj : j < l.length, i < j ∧ l[j] = p := by
  obtain ⟨k, hk, hke⟩ := List.getElem_of_mem h
  rw [List.getElem_drop] at hke
  have hlt : i + 1 + k < l.length := by
    rw [List.length_drop] at hk
    omega
  exact ⟨i + 1 + k, hlt, by omega, hke⟩

/-- **C7 (amended: duplicate-free input).** On a panel list without
duplicates, `merge_panels` reaches the containment fixed point in one pass:
the output is a sublist of the input, no output panel fully contains another
distinct output panel, and every removed panel was contained in some other
panel of the input. -/
theorem merge_panels_containment_free (panels : List Panel) (hnd : panels.Nodup) :
    (mergePanels panels).Sublist panels ∧
      (∀ p ∈ mergePanels panels, ∀ q ∈ mergePanels panels, p ≠ q →
        Panel.containsP p q = false) ∧
      (∀ p ∈ panels, p ∉ mergePanels panels →
        ∃ q ∈ panels, q ≠ p ∧ Panel.containsP q p = true) := by
  refine ⟨foldl_erase_sublist _ panels, ?_, ?_⟩
  · intro p hp q hq hpq
    by_contra hcne
    have hcpq : Panel.containsP p q = true := by
      revert hcne
      cases Panel.containsP p q <;> simp
    obtain ⟨hpl, hpnm⟩ := (mem_mergePanels hnd p).mp hp
    obtain ⟨hql, hqnm⟩ := (mem_mergePanels hnd q).mp hq
    obtain ⟨i, hi, hpi⟩ := List.getElem_of_mem hpl
    obtain ⟨j, hj, hqj⟩ := List.getElem_of_mem hql
    have hij : i ≠ j := by
      intro he
      subst he
      rw [hpi] at hqj
      exact hpq hqj
    rcases Nat.lt_or_ge i j with hlt | hge
    · apply hqnm
      rw [mem_mergeMarks]
      refine ⟨i, hi, q, ?_, Or.inl ⟨?_, rfl⟩⟩
      · rw [← hqj]
        exact getElem_mem_drop hj hlt
      · simp only [List.get_eq_getElem]
        rw [hpi, hcpq]
    · have hjlt : j < i := by omega
      apply hqnm
      rw [mem_mergeMarks]
      refine ⟨j, hj, p, ?_, Or.inr ⟨?_, ?_, ?_⟩⟩
      · rw [← hpi]
        exact getElem_mem_drop hi hjlt
      · simp only [List.get_eq_getElem]
        rw [hqj]
        by_contra hcq
        have : Panel.containsP q p = true := by
          revert hcq
          cases Panel.containsP q p <;> simp
        exact hpq (Panel.containsP_antisymm hcpq this)
      · simp only [List.get_eq_getElem]
        rw [hqj]
        exact hcpq
      · simp only [List.get_eq_getElem]
        rw [hqj]
  · intro p hpl hpn
    have hpm : p ∈ mergeMarks panels := by
      by_contra hc
      exact hpn ((mem_mergePanels hnd p).mpr ⟨hpl, hc⟩)
    rw [mem_mergeMarks] at hpm
    obtain ⟨i, hi, p2, hp2drop, hcase⟩ := hpm
    rcases hcase with ⟨hc, rfl⟩ | ⟨hnc, hc, heq⟩
    · refine ⟨panels.get ⟨i, hi⟩, List.getElem_mem hi, ?_, hc⟩
      obtain ⟨j, hj, hij, hje⟩ := mem_drop_getElem hp2drop
      intro he
      simp only [List.get_eq_getElem] at he
      rw [← hje] at he
      rw [hnd.getElem_inj_iff] at he
      omega
    · refine ⟨p2, List.mem_of_mem_drop hp2drop, ?_, by rw [← heq] at hc; exact hc⟩
      intro he
      rw [heq] at he
      rw [he] at hnc
      rw [Panel.containsP_refl] at hnc
      exact Bool.noConfusion hnc

/-- Witness for **C7** on a concrete duplicate-free input. -/
theorem merge_panels_containment_free_witness :
    ([⟨0, 0, 10, 10⟩, ⟨1, 1, 5, 5⟩] : List Panel).Nodup ∧
      ((mergePanels [⟨0, 0, 10, 10⟩, ⟨1, 1, 5, 5⟩]).Sublist [⟨0, 0, 10, 10⟩, ⟨1, 1, 5, 5⟩] ∧
        (∀ p ∈ mergePanels [⟨0, 0, 10, 10⟩, ⟨1, 1, 5, 5⟩],
          ∀ q ∈ mergePanels [⟨0, 0, 10, 10⟩, ⟨1, 1, 5, 5⟩], p ≠ q →
            Panel.containsP p q = false) ∧
        (∀ p ∈ ([⟨0, 0, 10, 10⟩, ⟨1, 1, 5, 5⟩] : List Panel),
          p ∉ mergePanels [⟨0, 0, 10, 10⟩, ⟨1, 1, 5, 5⟩] →
            ∃ q ∈ ([⟨0, 0, 10, 10⟩, ⟨1, 1, 5, 5⟩] : List Panel), q ≠ p ∧
              Panel.containsP q p = true)) :=
  ⟨by decide, merge_panels_containment_free [⟨0, 0, 10, 10⟩, ⟨1, 1, 5, 5⟩] (by decide)⟩

/-! ### Pipeline output size invariant (C5) -/

theorem listInsertAt_perm (n : Nat) (a : α) (l : List α) :
    (listInsertAt n a l).Perm (a :: l) := by
  unfold listInsertAt
  calc (l.take n ++ a :: l.drop n).Perm (a :: (l.take n ++ l.drop n)) := List.perm_middle
    _ = a :: l := by rw [List.take_append_drop]

theorem eraseIdx_cons_perm {l : List α} {i : Nat} {p : α} (h : l[i]? = some p) :
    (p :: l.eraseIdx i).Perm l := by
  have hi : i < l.length := by
    by_contra hc
    rw [List.getElem?_eq_none_iff.mpr (by omega)] at h
    exact Option.noConfusion h
  have hp : l[i] = p := by
    have := List.getElem?_eq_getElem hi
    rw [h] at this
    exact (Option.some.inj this).symm
  rw [List.eraseIdx_eq_take_drop_succ]
  have hsplit : l = l.take i ++ l[i] :: l.drop (i + 1) := by
    conv_lhs => rw [← List.take_append_drop i l]
    congr 1
    rw [List.drop_eq_getElem_cons hi]
  calc (p :: (l.take i ++ l.drop (i + 1))).Perm (l.take i ++ p :: l.drop (i + 1)) :=
        (List.perm_middle).symm
    _ = l := by rw [← hp, ← hsplit]

theorem fixStep_perm (nbf : List Panel → Panel → List (Option Panel)) {l l' : List Panel}
    (h : fixStep nbf l = some l') : l'.Perm l := by
  unfold fixStep at h
  cases hm : findMove nbf l with
  | none => rw [hm] at h; exact Option.noConfusion h
  | some m =>
    rw [hm] at h
    have hl' : l' = applyMove l m.1 m.2 := (Option.some.inj h).symm
    subst hl'
    unfold applyMove
    cases hli : l[m.1]? with
    | none => exact List.Perm.refl l
    | some p =>
      exact List.Perm.trans (listInsertAt_perm m.2 p (l.eraseIdx m.1)) (eraseIdx_cons_perm hli)

theorem fixLoop_perm (nbf : List Panel → Panel → List (Option Panel)) (fuel : Nat) :
    ∀ l : List Panel, (fixLoop nbf fuel l).Perm l := by
  induction fuel with
  | zero => intro l; exact List.Perm.refl l
  | succ n ih =>
    intro l
    unfold fixLoop
    cases hs : fixStep nbf l with
    | none => exact List.Perm.refl l
    | some l' => exact List.Perm.trans (ih l') (fixStep_perm nbf hs)

theorem forall₂_mem_exists {R : Panel → Panel → Prop} {l₁ l₂ : List Panel}
    (h : List.Forall₂ R l₁ l₂) : ∀ p ∈ l₂, ∃ q ∈ l₁, R q p := by
  intro p hp
  rw [List.forall₂_iff_get] at h
  obtain ⟨hl, hget⟩ := h
  obtain ⟨i, hi, hpi⟩ := List.getElem_of_mem hp
  have hi1 : i < l₁.length := by omega
  refine ⟨l₁[i], List.getElem_mem hi1, ?_⟩
  have := hget i hi1 hi
  simp only [List.get_eq_getElem] at this
  rw [hpi] at this
  exact this

theorem excludeSmall_bound (cfg : PageCfg) (panels : List Panel) :
    ∀ p ∈ excludeSmallPanels cfg panels,
      (cfg.S : ℚ) * cfg.smallCut ≤ (p.w : ℚ) ∧ (cfg.S : ℚ) * cfg.smallCut ≤ (p.h : ℚ) := by
  intro p hp
  rw [excludeSmallPanels, List.mem_filter] at hp
  obtain ⟨-, hsm⟩ := hp
  rw [Bool.not_eq_eq_eq_not, Bool.not_true] at hsm
  rw [Panel.isSmall, Bool.or_eq_false_iff] at hsm
  obtain ⟨h1, h2⟩ := hsm
  rw [decide_eq_false_iff_not, not_lt] at h1 h2
  exact ⟨h1, h2⟩

/-- **C5.** On the pipeline output, when the fallback full-page panel is not
in effect, every panel has strictly positive width and height and both
dimensions at least `min_panel_size_ratio * min(W, H)` (stated for a
well-formed configuration: positive shorter dimension and positive ratio,
which the constructor guarantees via the non-empty-image check and the
ratio default). -/
theorem pipeline_output_min_size (cfg : PageCfg) (num : Numbering) (fuel : Nat)
    (panels : List Panel) (hS : 0 < cfg.S) (hcut : 0 < cfg.smallCut)
    (hfb : expandPanelsPass (sortPanels num (excludeSmallPanels cfg panels)) ≠ []) :
    ∀ p ∈ pipelineTail cfg num fuel panels,
      0 < p.w ∧ 0 < p.h ∧
        (cfg.S : ℚ) * cfg.smallCut ≤ (p.w : ℚ) ∧ (cfg.S : ℚ) * cfg.smallCut ≤ (p.h : ℚ) := by
  intro p hp
  simp only [pipelineTail] at hp
  rw [fallbackFullPage, if_neg (by simpa [List.length_eq_zero] using hfb)] at hp
  have hp2 : p ∈ expandPanelsPass (sortPanels num (excludeSmallPanels cfg panels)) :=
    ((fixLoop_perm (neighboursBefore num) fuel _).mem_iff).mp hp
  obtain ⟨q, hq, hout⟩ := forall₂_mem_exists (R := EdgeOutward)
    (expandPanels_edgeOutward (actualGutters (sortPanels num (excludeSmallPanels cfg panels)))
      (sortPanels num (excludeSmallPanels cfg panels))) p hp2
  have hq2 : q ∈ excludeSmallPanels cfg panels :=
    ((List.mergeSort_perm (excludeSmallPanels cfg panels) (readingLE num)).mem_iff).mp hq
  obtain ⟨hw, hh⟩ := excludeSmall_bound cfg panels q hq2
  have hwle : q.w ≤ p.w := by
    obtain ⟨h1, h2, h3, h4⟩ := hout
    unfold Panel.w
    omega
  have hhle : q.h ≤ p.h := by
    obtain ⟨h1, h2, h3, h4⟩ := hout
    unfold Panel.h
    omega
  have hwq : (cfg.S : ℚ) * cfg.smallCut ≤ (p.w : ℚ) :=
    le_trans hw (by exact_mod_cast hwle)
  have hhq : (cfg.S : ℚ) * cfg.smallCut ≤ (p.h : ℚ) :=
    le_trans hh (by exact_mod_cast hhle)
  have hpos : (0 : ℚ) < (cfg.S : ℚ) * cfg.smallCut :=
    mul_pos (by exact_mod_cast hS) hcut
  refine ⟨?_, ?_, hwq, hhq⟩
  · exact_mod_cast lt_of_lt_of_le hpos hwq
  · exact_mod_cast lt_of_lt_of_le hpos hhq

/-- Witness for **C5** at a concrete page. -/
theorem pipeline_output_min_size_witness :
    0 < PageCfg.S ⟨15, 15, 1/15⟩ ∧ (0 : ℚ) < PageCfg.smallCut ⟨15, 15, 1/15⟩ ∧
      expandPanelsPass (sortPanels Numbering.ltr
        (excludeSmallPanels ⟨15, 15, 1/15⟩ [⟨0, 0, 5, 5⟩])) ≠ [] ∧
      ∀ p ∈ pipelineTail ⟨15, 15, 1/15⟩ Numbering.ltr 2 [⟨0, 0, 5, 5⟩],
        0 < p.w ∧ 0 < p.h ∧
          ((PageCfg.S ⟨15, 15, 1/15⟩ : Int) : ℚ) * PageCfg.smallCut ⟨15, 15, 1/15⟩ ≤ (p.w : ℚ) ∧
          ((PageCfg.S ⟨15, 15, 1/15⟩ : Int) : ℚ) * PageCfg.smallCut ⟨15, 15, 1/15⟩ ≤ (p.h : ℚ) := by
  have hx : excludeSmallPanels ⟨15, 15, 1/15⟩ [⟨0, 0, 5, 5⟩] = [⟨0, 0, 5, 5⟩] := by
    norm_num [excludeSmallPanels, Panel.isSmall, PageCfg.S, Panel.w, Panel.h, List.filter]
  have hs : sortPanels Numbering.ltr (excludeSmallPanels ⟨15, 15, 1/15⟩ [⟨0, 0, 5, 5⟩])
      = [⟨0, 0, 5, 5⟩] := by
    rw [hx, sortPanels, List.mergeSort_singleton]
  have hfb : expandPanelsPass (sortPanels Numbering.ltr
      (excludeSmallPanels ⟨15, 15, 1/15⟩ [⟨0, 0, 5, 5⟩])) ≠ [] := by
    rw [hs]
    decide
  exact ⟨by decide, by norm_num [PageCfg.smallCut], hfb,
    pipeline_output_min_size ⟨15, 15, 1/15⟩ Numbering.ltr 2 [⟨0, 0, 5, 5⟩] (by decide)
      (by norm_num [PageCfg.smallCut]) hfb⟩

/-! ### Non-termination of the numbering fix under a cyclic assignment -/

theorem cycStep_AB :
    fixStep (nbfOfMaps cycNbT cycNbS) [cycPanelA, cycPanelB]
      = some [cycPanelB, cycPanelA] := by decide

theorem cycStep_BA :
    fixStep (nbfOfMaps cycNbT cycNbS) [cycPanelB, cycPanelA]
      = some [cycPanelA, cycPanelB] := by decide

theorem cycLoop_states (n : Nat) :
    (fixLoop (nbfOfMaps cycNbT cycNbS) n [cycPanelA, cycPanelB] = [cycPanelA, cycPanelB] ∨
      fixLoop (nbfOfMaps cycNbT cycNbS) n [cycPanelA, cycPanelB] = [cycPanelB, cycPanelA]) ∧
    (fixLoop (nbfOfMaps cycNbT cycNbS) n [cycPanelB, cycPanelA] = [cycPanelA, cycPanelB] ∨
      fixLoop (nbfOfMaps cycNbT cycNbS) n [cycPanelB, cycPanelA] = [cycPanelB, cycPanelA]) := by
  induction n with
  | zero => exact ⟨Or.inl rfl, Or.inr rfl⟩
  | succ k ih =>
    constructor
    · show (fixLoop _ (k + 1) [cycPanelA, cycPanelB] = _ ∨ _)
      unfold fixLoop
      rw [cycStep_AB]
      exact ih.2
    · show (fixLoop _ (k + 1) [cycPanelB, cycPanelA] = _ ∨ _)
      unfold fixLoop
      rw [cycStep_BA]
      exact ih.1

/-- **C4 counterexample.** For the cyclic before-neighbour assignment in
which each of two panels is the other's top-neighbour, the
`fix_panels_numbering` loop never reaches a sweep without moves: the claim's
"every assignment" quantification fails. -/
theorem fix_numbering_cyclic_diverges :
    ¬ FixTerminates (nbfOfMaps cycNbT cycNbS) [cycPanelA, cycPanelB] := by
  rintro ⟨n, hn⟩
  rcases (cycLoop_states n).1 with h | h <;> rw [h] at hn
  · rw [cycStep_AB] at hn
    exact Option.noConfusion hn
  · rw [cycStep_BA] at hn
    exact Option.noConfusion hn

/-! ### Rank-minimum lemmas -/

theorem foldlMin_le_init (σ : Panel → Nat) (ps : List Panel) :
    ∀ b : Nat, ps.foldl (fun a q => min a (σ q)) b ≤ b := by
  induction ps with
  | nil => intro b; exact le_refl b
  | cons q qs ih =>
    intro b
    exact le_trans (ih (min b (σ q))) (min_le_left _ _)

theorem foldlMin_le_mem (σ : Panel → Nat) (ps : List Panel) :
    ∀ (b : Nat) (q : Panel), q ∈ ps → ps.foldl (fun a q => min a (σ q)) b ≤ σ q := by
  induction ps with
  | nil => intro b q hq; exact absurd hq (List.not_mem_nil q)
  | cons t ts ih =>
    intro b q hq
    rcases List.mem_cons.mp hq with rfl | hq
    · exact le_trans (foldlMin_le_init σ ts _) (min_le_right _ _)
    · exact ih _ q hq

theorem foldlMin_attained (σ : Panel → Nat) (ps : List Panel) :
    ∀ b : Nat, ps.foldl (fun a q => min a (σ q)) b = b ∨
      ∃ q ∈ ps, ps.foldl (fun a q => min a (σ q)) b = σ q := by
  induction ps with
  | nil => intro b; exact Or.inl rfl
  | cons t ts ih =>
    intro b
    rcases ih (min b (σ t)) with h | ⟨q, hq, h⟩
    · rcases min_cases b (σ t) with ⟨he, -⟩ | ⟨he, -⟩
      · exact Or.inl (by rw [List.foldl_cons, h, he])
      · exact Or.inr ⟨t, List.mem_cons_self t ts, by rw [List.foldl_cons, h, he]⟩
    · exact Or.inr ⟨q, List.mem_cons_of_mem t hq, by rw [List.foldl_cons, h]⟩

theorem sigMin_le (σ : Panel → Nat) {l : List Panel} {q : Panel} (hq : q ∈ l) :
    sigMin σ l ≤ σ q := by
  cases l with
  | nil => exact absurd hq (List.not_mem_nil q)
  | cons p ps =>
    rcases List.mem_cons.mp hq with rfl | hq
    · exact foldlMin_le_init σ ps (σ q)
    · exact foldlMin_le_mem σ ps (σ p) q hq

theorem sigMin_attained (σ : Panel → Nat) {l : List Panel} (hne : l ≠ []) :
    ∃ q ∈ l, σ q = sigMin σ l := by
  cases l with
  | nil => exact absurd rfl hne
  | cons p ps =>
    rcases foldlMin_attained σ ps (σ p) with h | ⟨q, hq, h⟩
    · exact ⟨p, List.mem_cons_self p ps, h.symm⟩
    · exact ⟨q, List.mem_cons_of_mem p hq, h.symm⟩

theorem sigMin_perm (σ : Panel → Nat) {l₁ l₂ : List Panel} (h : l₁.Perm l₂) :
    sigMin σ l₁ = sigMin σ l₂ := by
  cases l₁ with
  | nil =>
    rw [← List.Perm.nil_eq h]
  | cons p ps =>
    have hne₁ : (p :: ps) ≠ ([] : List Panel) := by simp
    have hne₂ : l₂ ≠ [] := by
      intro he
      subst he
      exact hne₁ (List.Perm.eq_nil h)
    apply le_antisymm
    · obtain ⟨q, hq, he⟩ := sigMin_attained σ hne₂
      rw [← he]
      exact sigMin_le σ (h.mem_iff.mpr hq)
    · obtain ⟨q, hq, he⟩ := sigMin_attained σ hne₁
      rw [← he]
      exact sigMin_le σ (h.mem_iff.mp hq)

theorem findIdx_eq_of_getElem {p : Panel → Bool} {l : List Panel} {i : Nat}
    (hi : i < l.length) (h1 : p (l.get ⟨i, hi⟩) = true)
    (h2 : ∀ j (hj : j < l.length), j < i → p (l.get ⟨j, hj⟩) = false) :
    l.findIdx p = i := by
  induction l generalizing i with
  | nil => exact absurd hi (by simp)
  | cons a as ih =>
    cases i with
    | zero =>
      simp only [List.get_eq_getElem, List.getElem_cons_zero] at h1
      rw [List.findIdx_cons, h1]
      rfl
    | succ i' =>
      have ha : p a = false := by
        have := h2 0 (by simp) (Nat.succ_pos i')
        simpa using this
      rw [List.findIdx_cons, ha]
      have hi' : i' < as.length := by
        simpa using hi
      have h1' : p (as.get ⟨i', hi'⟩) = true := by
        simpa using h1
      have h2' : ∀ j (hj : j < as.length), j < i' → p (as.get ⟨j, hj⟩) = false := by
        intro j hj hji
        have := h2 (j + 1) (by simpa using hj) (by omega)
        simpa using this
      simp [ih hi' h1' h2']

theorem sigMinIdx_lt (σ : Panel → Nat) {l : List Panel} (hne : l ≠ []) :
    sigMinIdx σ l < l.length := by
  apply List.findIdx_lt_length_of_exists
  obtain ⟨q, hq, he⟩ := sigMin_attained σ hne
  exact ⟨q, hq, by simpa using he⟩

theorem sigMinIdx_getElem (σ : Panel → Nat) {l : List Panel} (hne : l ≠ [])
    (h : sigMinIdx σ l < l.length) : σ (l.get ⟨sigMinIdx σ l, h⟩) = sigMin σ l := by
  have := List.findIdx_getElem (p := fun p => σ p = sigMin σ l) (w := h)
  simpa using this

theorem sigMinIdx_before (σ : Panel → Nat) {l : List Panel} {j : Nat}
    (hj : j < l.length) (hlt : j < sigMinIdx σ l) : sigMin σ l < σ (l.get ⟨j, hj⟩) := by
  have hne := List.not_of_lt_findIdx (p := fun p => σ p = sigMin σ l) hlt
  simp only [List.get_eq_getElem]
  have hle : sigMin σ l ≤ σ l[j] := sigMin_le σ (List.getElem_mem hj)
  have : ¬(σ l[j] = sigMin σ l) := by simpa using hne
  omega

theorem fixMeasureAux_succ (σ : Panel → Nat) (fuel : Nat) {l : List Panel} (hne : l ≠ []) :
    fixMeasureAux σ (fuel + 1) l
      = sigMinIdx σ l * Nat.factorial (sigMinIdx σ l)
          + fixMeasureAux σ fuel (l.take (sigMinIdx σ l)) := by
  cases l with
  | nil => exact absurd rfl hne
  | cons a as => rfl

theorem fixMeasureAux_congr (σ : Panel → Nat) :
    ∀ (f1 : Nat), ∀ {f2 : Nat} {l : List Panel}, l.length ≤ f1 → l.length ≤ f2 →
      fixMeasureAux σ f1 l = fixMeasureAux σ f2 l := by
  intro f1
  induction f1 with
  | zero =>
    intro f2 l h1 h2
    have : l = [] := List.length_eq_zero.mp (by omega)
    subst this
    cases f2 <;> rfl
  | succ f ih =>
    intro f2 l h1 h2
    cases l with
    | nil => cases f2 <;> rfl
    | cons a as =>
      have hne : (a :: as) ≠ ([] : List Panel) := by simp
      cases f2 with
      | zero => exact absurd h2 (by simp)
      | succ f2' =>
        rw [fixMeasureAux_succ σ f hne, fixMeasureAux_succ σ f2' hne]
        have hidx := sigMinIdx_lt σ hne
        have hlen : ((a :: as).take (sigMinIdx σ (a :: as))).length = sigMinIdx σ (a :: as) := by
          rw [List.length_take]
          omega
        rw [ih (by omega : ((a :: as).take (sigMinIdx σ (a :: as))).length ≤ f)
          (by omega : ((a :: as).take (sigMinIdx σ (a :: as))).length ≤ f2')]

theorem fixMeasureAux_lt_factorial (σ : Panel → Nat) :
    ∀ (fuel : Nat) {l : List Panel}, l.length ≤ fuel →
      fixMeasureAux σ fuel l < Nat.factorial l.length := by
  intro fuel
  induction fuel with
  | zero =>
    intro l h
    have : l = [] := List.length_eq_zero.mp (by omega)
    subst this
    exact Nat.zero_lt_one
  | succ f ih =>
    intro l h
    cases l with
    | nil => exact Nat.zero_lt_one
    | cons a as =>
      have hne : (a :: as) ≠ ([] : List Panel) := by simp
      rw [fixMeasureAux_succ σ f hne]
      have hidx := sigMinIdx_lt σ hne
      set i := sigMinIdx σ (a :: as) with hidef
      have hlen : ((a :: as).take i).length = i := by
        rw [List.length_take]
        omega
      have hrec := ih (l := (a :: as).take i) (by omega)
      rw [hlen] at hrec
      have hle : Nat.factorial (i + 1) ≤ Nat.factorial (a :: as).length :=
        Nat.factorial_le hidx
      calc i * Nat.factorial i + fixMeasureAux σ f ((a :: as).take i)
          < i * Nat.factorial i + Nat.factorial i := Nat.add_lt_add_left hrec _
        _ = (i + 1) * Nat.factorial i := (Nat.succ_mul i (Nat.factorial i)).symm
        _ = Nat.factorial (i + 1) := (Nat.factorial_succ i).symm
        _ ≤ Nat.factorial (a :: as).length := hle

theorem fixMeasure_lt_factorial (σ : Panel → Nat) (l : List Panel) :
    fixMeasure σ l < Nat.factorial l.length :=
  fixMeasureAux_lt_factorial σ l.length (le_refl _)

theorem listInsertAt_length {l : List α} {n : Nat} (a : α) (h : n ≤ l.length) :
    (listInsertAt n a l).length = l.length + 1 := by
  unfold listInsertAt
  simp only [List.length_append, List.length_cons, List.length_take, List.length_drop]
  omega

theorem fixMeasure_sigMove (σ : Panel → Nat) :
    ∀ (n : Nat) (rest : List Panel) (x : Panel) (k : Nat),
      rest.length ≤ n → 1 ≤ k → k ≤ rest.length →
      σ (rest.getD (k - 1) x) < σ x →
      fixMeasure σ (listInsertAt k x rest) < fixMeasure σ (x :: rest) := by
  intro n
  induction n with
  | zero =>
    intro rest x k hn hk1 hk2 hσ
    omega
  | succ nn ih =>
    intro rest x k hn hk1 hk2 hσ
    have hq_idx : k - 1 < rest.length := by omega
    have hq_get : rest.getD (k - 1) x = rest[k - 1] := List.getD_eq_getElem rest x hq_idx
    rw [hq_get] at hσ
    have hperm : (listInsertAt k x rest).Perm (x :: rest) := listInsertAt_perm k x rest
    have hM : sigMin σ (listInsertAt k x rest) = sigMin σ (x :: rest) := sigMin_perm σ hperm
    have hqM : sigMin σ (x :: rest) ≤ σ rest[k - 1] :=
      sigMin_le σ (List.mem_cons_of_mem x (List.getElem_mem hq_idx))
    have hxM : sigMin σ (x :: rest) < σ x := lt_of_le_of_lt hqM hσ
    have hne : (x :: rest) ≠ [] := by simp
    have hxne : decide (σ x = sigMin σ (x :: rest)) = false := by
      simp only [decide_eq_false_iff_not]
      omega
    have hp'_ex : ∃ q ∈ rest, (fun t => decide (σ t = sigMin σ (x :: rest))) q = true := by
      obtain ⟨q, hq, he⟩ := sigMin_attained σ hne
      rcases List.mem_cons.mp hq with rfl | hqr
      · omega
      · exact ⟨q, hqr, by simpa using he⟩
    have hp'lt : (rest.findIdx fun t => σ t = sigMin σ (x :: rest)) < rest.length :=
      List.findIdx_lt_length_of_exists hp'_ex
    have hmin_at : σ (rest[rest.findIdx fun t => σ t = sigMin σ (x :: rest)])
        = sigMin σ (x :: rest) := by
      have := List.findIdx_getElem (p := fun t => σ t = sigMin σ (x :: rest))
        (w := hp'lt)
      simpa using this
    have hbefore : ∀ j, j < (rest.findIdx fun t => σ t = sigMin σ (x :: rest)) →
        ∀ hj : j < rest.length, sigMin σ (x :: rest) < σ rest[j] := by
      intro j hjlt hj
      have hne' := List.not_of_lt_findIdx (p := fun t => σ t = sigMin σ (x :: rest)) hjlt
      have hle : sigMin σ (x :: rest) ≤ σ rest[j] :=
        sigMin_le σ (List.mem_cons_of_mem x (List.getElem_mem hj))
      simp only [decide_eq_false_iff_not] at hne'
      omega
    have hp_eq : sigMinIdx σ (x :: rest)
        = (rest.findIdx fun t => σ t = sigMin σ (x :: rest)) + 1 := by
      show List.findIdx _ (x :: rest) = _
      rw [List.findIdx_cons, hxne]
      rfl
    have hmlen : (listInsertAt k x rest).length = rest.length + 1 := listInsertAt_length x hk2
    have hmne : listInsertAt k x rest ≠ [] := by
      intro hc
      rw [hc] at hmlen
      simp at hmlen
    have hlen_take_k : (rest.take k).length = k := by
      rw [List.length_take]
      omega
    set p' := rest.findIdx fun t => σ t = sigMin σ (x :: rest) with hp'def
    have hLHS : fixMeasure σ (listInsertAt k x rest)
        = sigMinIdx σ (listInsertAt k x rest)
            * Nat.factorial (sigMinIdx σ (listInsertAt k x rest))
          + fixMeasureAux σ rest.length
              ((listInsertAt k x rest).take (sigMinIdx σ (listInsertAt k x rest))) := by
      rw [fixMeasure, hmlen, fixMeasureAux_succ σ rest.length hmne]
    have hRHS : fixMeasure σ (x :: rest)
        = (p' + 1) * Nat.factorial (p' + 1)
          + fixMeasureAux σ rest.length ((x :: rest).take (p' + 1)) := by
      rw [fixMeasure, List.length_cons, fixMeasureAux_succ σ rest.length hne, hp_eq]
    rcases Nat.lt_or_ge p' k with hck | hck
    · -- Case A: the minimal-rank panel lies inside the jumped block
      have hminm : sigMinIdx σ (listInsertAt k x rest) = p' := by
        show List.findIdx _ _ = p'
        apply findIdx_eq_of_getElem (by omega : p' < (listInsertAt k x rest).length)
        · simp only [List.get_eq_getElem]
          have hb1 : p' < (listInsertAt k x rest).length := by omega
          have hgm : (listInsertAt k x rest)[p'] = rest[p'] := by
            show (rest.take k ++ x :: rest.drop k)[p'] = _
            rw [List.getElem_append]
            rw [dif_pos (by omega : p' < (rest.take k).length)]
            exact List.getElem_take rest
          simp only [hgm, hM, decide_eq_true_eq]
          exact hmin_at
        · intro j hj hjlt
          simp only [List.get_eq_getElem]
          have hb2 : j < rest.length := by omega
          have hgm : (listInsertAt k x rest)[j] = rest[j] := by
            show (rest.take k ++ x :: rest.drop k)[j] = _
            rw [List.getElem_append]
            rw [dif_pos (by omega : j < (rest.take k).length)]
            exact List.getElem_take rest
          simp only [hgm, hM, decide_eq_false_iff_not]
          have := hbefore j (by omega) (by omega)
          omega
      have htake : (listInsertAt k x rest).take p' = rest.take p' := by
        show (rest.take k ++ x :: rest.drop k).take p' = _
        rw [List.take_append_eq_append_take, hlen_take_k,
          show p' - k = 0 by omega, List.take_take, List.take_zero, List.append_nil]
        congr 1
        omega
      have hlen_take_p' : (rest.take p').length = p' := by
        rw [List.length_take]
        omega
      have hbound : fixMeasureAux σ rest.length ((listInsertAt k x rest).take p')
          < Nat.factorial p' := by
        have hb := fixMeasureAux_lt_factorial σ rest.length
          (l := (listInsertAt k x rest).take p') (by rw [htake, hlen_take_p']; omega)
        rw [htake] at hb ⊢
        rwa [hlen_take_p'] at hb
      rw [hLHS, hRHS, hminm]
      have hstep : p' * Nat.factorial p'
            + fixMeasureAux σ rest.length ((listInsertAt k x rest).take p')
          < Nat.factorial (p' + 1) := by
        have h2 : p' * Nat.factorial p'
              + fixMeasureAux σ rest.length ((listInsertAt k x rest).take p')
            < p' * Nat.factorial p' + Nat.factorial p' := Nat.add_lt_add_left hbound _
        calc p' * Nat.factorial p'
              + fixMeasureAux σ rest.length ((listInsertAt k x rest).take p')
            < p' * Nat.factorial p' + Nat.factorial p' := h2
          _ = (p' + 1) * Nat.factorial p' := (Nat.succ_mul p' (Nat.factorial p')).symm
          _ = Nat.factorial (p' + 1) := (Nat.factorial_succ p').symm
      have hge : Nat.factorial (p' + 1) ≤ (p' + 1) * Nat.factorial (p' + 1) :=
        Nat.le_mul_of_pos_left _ (by omega)
      omega
    · -- Case B: the jump stays inside the window before the minimal rank
      have hm_lt : ∀ j, j < k → (listInsertAt k x rest)[j]? = rest[j]? := by
        intro j hj
        show (rest.take k ++ x :: rest.drop k)[j]? = _
        rw [List.getElem?_append_left (by rw [hlen_take_k]; exact hj)]
        rw [List.getElem?_take_of_lt hj]
      have hm_at : (listInsertAt k x rest)[k]? = some x := by
        show (rest.take k ++ x :: rest.drop k)[k]? = _
        rw [List.getElem?_append_right (le_of_eq hlen_take_k)]
        simp only [hlen_take_k, Nat.sub_self, List.getElem?_cons_zero]
      have hm_gt : ∀ j, k < j → (listInsertAt k x rest)[j]? = rest[j - 1]? := by
        intro j hj
        show (rest.take k ++ x :: rest.drop k)[j]? = _
        rw [List.getElem?_append_right (by rw [hlen_take_k]; omega)]
        rw [hlen_take_k]
        rw [show j - k = (j - k - 1) + 1 by omega, List.getElem?_cons_succ,
          List.getElem?_drop]
        rw [show k + (j - k - 1) = j - 1 by omega]
      have hp1len : p' + 1 < (listInsertAt k x rest).length := by omega
      have hminm : sigMinIdx σ (listInsertAt k x rest) = p' + 1 := by
        show List.findIdx _ _ = p' + 1
        apply findIdx_eq_of_getElem hp1len
        · simp only [List.get_eq_getElem]
          have hgm : (listInsertAt k x rest)[p' + 1] = rest[p'] := by
            rw [List.getElem_eq_iff, hm_gt (p' + 1) (by omega)]
            rw [show p' + 1 - 1 = p' by omega]
            exact List.getElem?_eq_getElem hp'lt
          simp only [hgm, hM, decide_eq_true_eq]
          exact hmin_at
        · intro j hj hjlt
          simp only [List.get_eq_getElem]
          rcases Nat.lt_trichotomy j k with hjk | hjk | hjk
          · have hb2 : j < rest.length := by omega
            have hgm : (listInsertAt k x rest)[j] = rest[j] := by
              rw [List.getElem_eq_iff, hm_lt j hjk]
              exact List.getElem?_eq_getElem hb2
            simp only [hgm, hM, decide_eq_false_iff_not]
            have := hbefore j (by omega) hb2
            omega
          · have hb2 : j < (listInsertAt k x rest).length := by omega
            have hgm : (listInsertAt k x rest)[j] = x := by
              rw [List.getElem_eq_iff, hjk]
              exact hm_at
            simp only [hgm, hM, decide_eq_false_iff_not]
            omega
          · have hb2 : j - 1 < rest.length := by omega
            have hgm : (listInsertAt k x rest)[j] = rest[j - 1] := by
              rw [List.getElem_eq_iff, hm_gt j hjk]
              exact List.getElem?_eq_getElem hb2
            simp only [hgm, hM, decide_eq_false_iff_not]
            have := hbefore (j - 1) (by omega) hb2
            omega
      have hwin : (listInsertAt k x rest).take (p' + 1) = listInsertAt k x (rest.take p') := by
        show (rest.take k ++ x :: rest.drop k).take (p' + 1)
            = (rest.take p').take k ++ x :: (rest.take p').drop k
        rw [List.take_append_eq_append_take, hlen_take_k, List.take_take, List.take_take]
        rw [show min (p' + 1) k = k by omega, show min k p' = k by omega]
        congr 1
        rw [show p' + 1 - k = (p' - k) + 1 by omega, List.take_succ_cons, List.drop_take]
      have hlen_take_p' : (rest.take p').length = p' := by
        rw [List.length_take]
        omega
      have hrec : fixMeasure σ (listInsertAt k x (rest.take p'))
          < fixMeasure σ (x :: rest.take p') := by
        apply ih (rest.take p') x k (by rw [hlen_take_p']; omega) hk1
          (by rw [hlen_take_p']; omega)
        have hb : k - 1 < (rest.take p').length := by
          rw [hlen_take_p']
          omega
        rw [List.getD_eq_getElem _ x hb]
        have hte : (rest.take p')[k - 1] = rest[k - 1] := List.getElem_take rest
        rw [hte]
        exact hσ
      have hlins_len : (listInsertAt k x (rest.take p')).length = p' + 1 := by
        rw [listInsertAt_length x (by rw [hlen_take_p']; omega), hlen_take_p']
      have hLaux : fixMeasureAux σ rest.length ((listInsertAt k x rest).take (p' + 1))
          = fixMeasure σ (listInsertAt k x (rest.take p')) := by
        rw [hwin, fixMeasure]
        exact fixMeasureAux_congr σ rest.length (by rw [hlins_len]; omega) (le_refl _)
      have hRaux : fixMeasureAux σ rest.length ((x :: rest).take (p' + 1))
          = fixMeasure σ (x :: rest.take p') := by
        rw [List.take_succ_cons, fixMeasure]
        exact fixMeasureAux_congr σ rest.length
          (by simp only [List.length_cons, hlen_take_p']; omega) (le_refl _)
      rw [hLHS, hRHS, hminm, hLaux, hRaux]
      exact Nat.add_lt_add_left hrec _

theorem findSome?_range_eq_some {β : Type} {f : Nat → Option β} :
    ∀ {n : Nat} {b : β}, (List.range n).findSome? f = some b →
      ∃ i, i < n ∧ f i = some b ∧ ∀ k, k < i → f k = none := by
  intro n
  induction n with
  | zero => intro b h; simp [List.range_zero] at h
  | succ m ih =>
    intro b h
    rw [List.range_succ, List.findSome?_append] at h
    cases hm : (List.range m).findSome? f with
    | some b' =>
      rw [hm] at h
      simp only [Option.or_some] at h
      obtain ⟨i, hi, hfi, hclean⟩ := ih hm
      exact ⟨i, by omega, by rw [hfi, h], hclean⟩
    | none =>
      rw [hm] at h
      simp only [Option.none_or] at h
      simp only [List.findSome?_cons] at h
      refine ⟨m, by omega, ?_, ?_⟩
      · revert h
        cases hfm : f m with
        | none => intro h; exact Option.noConfusion h
        | some b'' => intro h; simpa using h
      · intro k hk
        by_contra hc
        cases hfk : f k with
        | none => exact hc hfk
        | some bk =>
          have : (List.range m).findSome? f ≠ none := by
            intro hno
            have hmem : k ∈ List.range m := List.mem_range.mpr hk
            have := List.findSome?_eq_none_iff.mp hno k hmem
            rw [hfk] at this
            exact Option.noConfusion this
          exact this hm

theorem indexOf_le_of_getElem? {a : Panel} :
    ∀ {l : List Panel} {m : Nat}, l[m]? = some a → List.indexOf a l ≤ m := by
  intro l
  induction l with
  | nil => intro m h; simp at h
  | cons b bs ih =>
    intro m h
    cases m with
    | zero =>
      simp only [List.getElem?_cons_zero] at h
      have hb : b = a := Option.some.inj h
      rw [List.indexOf_cons, hb]
      simp
    | succ m' =>
      rw [List.getElem?_cons_succ] at h
      rw [List.indexOf_cons]
      cases hba : (b == a) with
      | true => simp
      | false =>
        simp only [Bool.cond_false]
        have := ih h
        omega

theorem findMove_maps_eq_some {nbT nbS : Panel → Option Panel} {l : List Panel} {i j : Nat}
    (h : findMove (nbfOfMaps nbT nbS) l = some (i, j)) :
    i < l.length ∧
      (∃ p, l[i]? = some p ∧ ∃ q, (nbT p = some q ∨ nbS p = some q) ∧
        j = List.indexOf q l ∧ i < j) ∧
      (∀ k, k < i → CleanAt nbT nbS l k) := by
  unfold findMove at h
  obtain ⟨i₀, hi₀n, hfi₀, hclean⟩ := findSome?_range_eq_some h
  cases hp : l[i₀]? with
  | none =>
    rw [hp] at hfi₀
    exact Option.noConfusion hfi₀
  | some p =>
    rw [hp] at hfi₀
    simp only at hfi₀
    obtain ⟨onb, honb, hres⟩ := List.exists_of_findSome?_eq_some hfi₀
    cases onb with
    | none => simp at hres
    | some q =>
      simp only at hres
      have hres' : (if i₀ < List.indexOf q l then
          some (i₀, List.indexOf q l) else none) = some (i, j) := hres
      by_cases hlt : i₀ < List.indexOf q l
      · rw [if_pos hlt] at hres'
        have hij : i₀ = i ∧ List.indexOf q l = j := by
          have := Option.some.inj hres'
          exact ⟨congrArg Prod.fst this, congrArg Prod.snd this⟩
        obtain ⟨rfl, hj⟩ := hij
        have hTSq : nbT p = some q ∨ nbS p = some q := by
          simp only [nbfOfMaps, List.mem_cons, List.not_mem_nil, or_false] at honb
          rcases honb with h1 | h1
          · exact Or.inl h1.symm
          · exact Or.inr h1.symm
        refine ⟨?_, ⟨p, hp, q, hTSq, hj.symm, by omega⟩, ?_⟩
        · by_contra hc
          rw [List.getElem?_eq_none_iff.mpr (by omega)] at hp
          exact Option.noConfusion hp
        · intro k hk
          intro pk hpk
          have hFk := hclean k hk
          rw [hpk] at hFk
          simp only at hFk
          rw [List.findSome?_eq_none_iff] at hFk
          constructor
          · intro qk hqk
            have := hFk (some qk) (by simp [nbfOfMaps, hqk])
            simp only at this
            by_contra hc
            rw [if_pos (by omega)] at this
            exact Option.noConfusion this
          · intro qk hqk
            have := hFk (some qk) (by simp [nbfOfMaps, hqk])
            simp only at this
            by_contra hc
            rw [if_pos (by omega)] at this
            exact Option.noConfusion this
      · rw [if_neg hlt] at hres'
        exact Option.noConfusion hres'

theorem applyMove_eq {l : List Panel} {i j : Nat} {p : Panel} (hp : l[i]? = some p)
    (hij : i < j) :
    applyMove l i j = l.take i ++ listInsertAt (j - i) p (l.drop (i + 1)) := by
  have hi : i < l.length := by
    by_contra hc
    rw [List.getElem?_eq_none_iff.mpr (by omega)] at hp
    exact Option.noConfusion hp
  have hlt : (l.take i).length = i := by
    rw [List.length_take]
    omega
  unfold applyMove
  rw [hp]
  dsimp only
  unfold listInsertAt
  rw [List.eraseIdx_eq_take_drop_succ]
  rw [List.take_append_eq_append_take, List.drop_append_eq_append_drop, hlt]
  rw [show (l.take i).take j = l.take i from by rw [List.take_take]; congr 1; omega]
  rw [List.drop_eq_nil_of_le (by omega : (l.take i).length ≤ j), List.nil_append,
    List.append_assoc]

theorem applyMove_take {l : List Panel} {i j : Nat} {p : Panel} (hp : l[i]? = some p)
    (hij : i < j) : (applyMove l i j).take i = l.take i := by
  rw [applyMove_eq hp hij, List.take_append_eq_append_take]
  have hlt : (l.take i).length = i := by
    have hi : i < l.length := by
      by_contra hc
      rw [List.getElem?_eq_none_iff.mpr (by omega)] at hp
      exact Option.noConfusion hp
    rw [List.length_take]
    omega
  rw [hlt, Nat.sub_self, List.take_zero, List.append_nil, List.take_take]
  congr 1
  omega

theorem applyMove_drop {l : List Panel} {i j : Nat} {p : Panel} (hp : l[i]? = some p)
    (hij : i < j) :
    (applyMove l i j).drop i = listInsertAt (j - i) p (l.drop (i + 1)) := by
  rw [applyMove_eq hp hij]
  have hlt : (l.take i).length = i := by
    have hi : i < l.length := by
      by_contra hc
      rw [List.getElem?_eq_none_iff.mpr (by omega)] at hp
      exact Option.noConfusion hp
    rw [List.length_take]
    omega
  rw [List.drop_append_eq_append_drop, List.drop_eq_nil_of_le (le_of_eq hlt), hlt,
    Nat.sub_self, List.drop_zero, List.nil_append]

theorem applyMove_length {l : List Panel} {i j : Nat} {p : Panel} (hp : l[i]? = some p)
    (hij : i < j) (hjl : j < l.length) : (applyMove l i j).length = l.length := by
  have hi : i < l.length := by omega
  rw [applyMove_eq hp hij, List.length_append,
    listInsertAt_length p (by rw [List.length_drop]; omega)]
  rw [List.length_take, List.length_drop]
  omega

theorem fixStep_measure_lt {nbT nbS : Panel → Option Panel} {σ : Panel → Nat}
    (hT : ∀ p q, nbT p = some q → σ q < σ p) (hS : ∀ p q, nbS p = some q → σ q < σ p)
    {l l' : List Panel}
    (hmemT : ∀ p q, p ∈ l → nbT p = some q → q ∈ l)
    (hmemS : ∀ p q, p ∈ l → nbS p = some q → q ∈ l)
    (hstep : fixStep (nbfOfMaps nbT nbS) l = some l') :
    fixGlobalMeasure (nbfOfMaps nbT nbS) σ l' < fixGlobalMeasure (nbfOfMaps nbT nbS) σ l := by
  unfold fixStep at hstep
  cases hfm : findMove (nbfOfMaps nbT nbS) l with
  | none =>
    rw [hfm] at hstep
    exact Option.noConfusion hstep
  | some m =>
    rw [hfm] at hstep
    obtain ⟨i, j⟩ := m
    have hl' : l' = applyMove l i j := (Option.some.inj hstep).symm
    obtain ⟨hilen, ⟨p, hp, q, hTS, hjq, hij⟩, hclean⟩ := findMove_maps_eq_some hfm
    have hpi : l[i] = p := by
      rw [List.getElem?_eq_getElem hilen] at hp
      exact Option.some.inj hp
    have hpl : p ∈ l := by
      rw [← hpi]
      exact List.getElem_mem hilen
    have hql : q ∈ l := by
      rcases hTS with h | h
      exacts [hmemT p q hpl h, hmemS p q hpl h]
    have hjlen : j < l.length := by
      rw [hjq]
      exact List.indexOf_lt_length.mpr hql
    have hσq : σ q < σ p := by
      rcases hTS with h | h
      exacts [hT p q h, hS p q h]
    have hlen' : l'.length = l.length := by
      rw [hl']
      exact applyMove_length hp hij hjlen
    have hlq : l[j] = q := by
      have hqlt : List.indexOf q l < l.length := List.indexOf_lt_length.mpr hql
      rw [List.getElem_eq_iff, hjq, List.getElem?_eq_getElem hqlt]
      exact congrArg some (List.getElem_indexOf hqlt)
    have hdrop' : l'.drop i = listInsertAt (j - i) p (l.drop (i + 1)) := by
      rw [hl']
      exact applyMove_drop hp hij
    have hdropl : l.drop i = p :: l.drop (i + 1) := by
      rw [List.drop_eq_getElem_cons hilen, hpi]
    have hMl : fixGlobalMeasure (nbfOfMaps nbT nbS) σ l
        = (l.length - i) * (Nat.factorial l.length + 1) + fixMeasure σ (l.drop i) := by
      unfold fixGlobalMeasure
      rw [hfm]
    have hsfx : fixMeasure σ (l'.drop i) < fixMeasure σ (l.drop i) := by
      rw [hdrop', hdropl]
      apply fixMeasure_sigMove σ (l.drop (i + 1)).length (l.drop (i + 1)) p (j - i)
        (le_refl _) (by omega) (by rw [List.length_drop]; omega)
      have hb : j - i - 1 < (l.drop (i + 1)).length := by
        rw [List.length_drop]
        omega
      have hqd : (l.drop (i + 1))[j - i - 1] = q := by
        rw [List.getElem_eq_iff, List.getElem?_drop, show i + 1 + (j - i - 1) = j by omega,
          List.getElem?_eq_getElem hjlen]
        exact congrArg some hlq
      rw [List.getD_eq_getElem _ p hb, hqd]
      exact hσq
    cases hfm' : findMove (nbfOfMaps nbT nbS) l' with
    | none =>
      have hMl' : fixGlobalMeasure (nbfOfMaps nbT nbS) σ l' = 0 := by
        unfold fixGlobalMeasure
        rw [hfm']
      rw [hMl', hMl]
      have hpos := Nat.mul_pos (show 0 < l.length - i by omega)
        (show 0 < Nat.factorial l.length + 1 by omega)
      omega
    | some m' =>
      obtain ⟨i', j'⟩ := m'
      obtain ⟨hi'len, ⟨p', hp', q', hTS', hjq', hij'⟩, hclean'⟩ := findMove_maps_eq_some hfm'
      have hMl' : fixGlobalMeasure (nbfOfMaps nbT nbS) σ l'
          = (l'.length - i') * (Nat.factorial l'.length + 1) + fixMeasure σ (l'.drop i') := by
        unfold fixGlobalMeasure
        rw [hfm']
      have hii' : i ≤ i' := by
        by_contra hc
        push_neg at hc
        have htake : l'.take i = l.take i := by
          rw [hl']
          exact applyMove_take hp hij
        have hgetk : ∀ k, k < i → l'[k]? = l[k]? := by
          intro k hk
          have h1 : (l'.take i)[k]? = l'[k]? := List.getElem?_take_of_lt hk
          have h2 : (l.take i)[k]? = l[k]? := List.getElem?_take_of_lt hk
          rw [← h1, htake, h2]
        have hp'l : l[i']? = some p' := by
          rw [← hgetk i' hc]
          exact hp'
        have hCA := hclean i' hc p' hp'l
        have hle : List.indexOf q' l ≤ i' := by
          rcases hTS' with h | h
          exacts [hCA.1 q' h, hCA.2 q' h]
        have hq'm : List.indexOf q' l < l.length := by
          have h1 := List.indexOf_le_length (a := q') (l := l)
          rw [hlen'] at hi'len
          omega
        have hlq' : l'[List.indexOf q' l]? = some q' := by
          rw [hgetk _ (by omega), List.getElem?_eq_getElem hq'm]
          exact congrArg some (List.getElem_indexOf hq'm)
        have hlast := indexOf_le_of_getElem? hlq'
        rw [hjq'] at hij'
        omega
      rcases Nat.eq_or_lt_of_le hii' with heq | hlt2
      · rw [hMl, hMl', hlen', ← heq]
        exact Nat.add_lt_add_left hsfx _
      · rw [hMl, hMl', hlen']
        have hw : fixMeasure σ (l'.drop i') < Nat.factorial l.length + 1 := by
          have h1 := fixMeasure_lt_factorial σ (l'.drop i')
          have h2 : Nat.factorial (l'.drop i').length ≤ Nat.factorial l.length := by
            apply Nat.factorial_le
            rw [List.length_drop, hlen']
            omega
          omega
        calc (l.length - i') * (Nat.factorial l.length + 1) + fixMeasure σ (l'.drop i')
            < (l.length - i') * (Nat.factorial l.length + 1)
                + (Nat.factorial l.length + 1) := by omega
          _ = (l.length - i' + 1) * (Nat.factorial l.length + 1) :=
              (Nat.succ_mul _ _).symm
          _ ≤ (l.length - i) * (Nat.factorial l.length + 1) :=
              Nat.mul_le_mul_right _ (by omega)
          _ ≤ (l.length - i) * (Nat.factorial l.length + 1) + fixMeasure σ (l.drop i) :=
              Nat.le_add_right _ _

theorem fixTerminates_of_measure {nbT nbS : Panel → Option Panel} {σ : Panel → Nat}
    (hT : ∀ p q, nbT p = some q → σ q < σ p) (hS : ∀ p q, nbS p = some q → σ q < σ p) :
    ∀ (k : Nat) (l : List Panel), fixGlobalMeasure (nbfOfMaps nbT nbS) σ l ≤ k →
      (∀ p q, p ∈ l → nbT p = some q → q ∈ l) →
      (∀ p q, p ∈ l → nbS p = some q → q ∈ l) →
      FixTerminates (nbfOfMaps nbT nbS) l := by
  intro k
  induction k with
  | zero =>
    intro l hm hmT hmS
    cases hs : fixStep (nbfOfMaps nbT nbS) l with
    | none => exact ⟨0, hs⟩
    | some l' =>
      have := fixStep_measure_lt hT hS hmT hmS hs
      omega
  | succ k ih =>
    intro l hm hmT hmS
    cases hs : fixStep (nbfOfMaps nbT nbS) l with
    | none => exact ⟨0, hs⟩
    | some l' =>
      have hdec := fixStep_measure_lt hT hS hmT hmS hs
      have hperm : l'.Perm l := fixStep_perm _ hs
      have hmT' : ∀ p q, p ∈ l' → nbT p = some q → q ∈ l' := fun p q hp hq =>
        hperm.mem_iff.mpr (hmT p q (hperm.mem_iff.mp hp) hq)
      have hmS' : ∀ p q, p ∈ l' → nbS p = some q → q ∈ l' := fun p q hp hq =>
        hperm.mem_iff.mpr (hmS p q (hperm.mem_iff.mp hp) hq)
      obtain ⟨n, hn⟩ := ih l' (by omega) hmT' hmS'
      refine ⟨n + 1, ?_⟩
      show fixStep (nbfOfMaps nbT nbS) (fixLoop (nbfOfMaps nbT nbS) (n + 1) l) = none
      unfold fixLoop
      rw [hs]
      exact hn

/-- **C4 (amended: acyclic assignments).** The `fix_panels_numbering` loop
terminates for every finite panel list and every assignment of top- and
left/right-before-neighbours that draws neighbours from the list and admits a
rank function strictly decreasing from a panel to its assigned
before-neighbours (equivalently: whose before-relation is acyclic). -/
theorem fix_numbering_terminates_of_ranked (nbT nbS : Panel → Option Panel) (σ : Panel → Nat)
    (hT : ∀ p q, nbT p = some q → σ q < σ p) (hS : ∀ p q, nbS p = some q → σ q < σ p)
    (l : List Panel)
    (hmemT : ∀ p q, p ∈ l → nbT p = some q → q ∈ l)
    (hmemS : ∀ p q, p ∈ l → nbS p = some q → q ∈ l) :
    FixTerminates (nbfOfMaps nbT nbS) l :=
  fixTerminates_of_measure hT hS (fixGlobalMeasure (nbfOfMaps nbT nbS) σ l) l (le_refl _)
    hmemT hmemS

/-- Witness for **C4 (amended)**: a concrete acyclic assignment on two
panels. -/
theorem fix_numbering_terminates_of_ranked_witness :
    FixTerminates
      (nbfOfMaps (fun p => if p = cycPanelB then some cycPanelA else none) fun _ => none)
      [cycPanelA, cycPanelB] := by
  apply fix_numbering_terminates_of_ranked _ _ (fun p => if p = cycPanelA then 0 else 1)
  · intro p q h
    by_cases hp : p = cycPanelB
    · rw [if_pos hp] at h
      have hq : q = cycPanelA := (Option.some.inj h).symm
      subst hq
      subst hp
      decide
    · rw [if_neg hp] at h
      exact Option.noConfusion h
  · intro p q h
    exact Option.noConfusion h
  · intro p q hp hq
    by_cases hpB : p = cycPanelB
    · rw [if_pos hpB] at hq
      rw [← Option.some.inj hq]
      decide
    · rw [if_neg hpB] at hq
      exact Option.noConfusion hq
  · intro p q hp hq
    exact Option.noConfusion hq

theorem cex_smallA : Panel.isSmall cexCfg cexA = true := by
  norm_num [Panel.isSmall, PageCfg.S, Panel.w, Panel.h, cexCfg, cexA]

theorem cex_smallB : Panel.isSmall cexCfg cexB = true := by
  norm_num [Panel.isSmall, PageCfg.S, Panel.w, Panel.h, cexCfg, cexB]

theorem cex_closeAB : Panel.isClose cexCfg cexA cexB = true := by
  norm_num [Panel.isClose, PageCfg.S, Panel.yOverlap, Panel.xOverlap, cexCfg, cexA, cexB]

theorem cex_closeBA : Panel.isClose cexCfg cexB cexA = true := by
  rw [Panel.isClose_symm]
  exact cex_closeAB

theorem cex_gsp :
    groupSmallPanels cexCfg [cexA, cexB, cexA] = [cexA, Panel.fromXYRB 0 0 12 5] := by
  have hABne : cexA ≠ cexB := by decide
  have hBAne : cexB ≠ cexA := by decide
  have hfil : List.filter (Panel.isSmall cexCfg) [cexA, cexB, cexA] = [cexA, cexB, cexA] := by
    simp [List.filter, cex_smallA, cex_smallB]
  simp only [groupSmallPanels, hfil]
  simp only [allPairs, List.map, List.append_nil, List.cons_append, List.nil_append]
  simp only [List.foldl_cons, List.foldl_nil]
  rw [show gspStep (Panel.isClose cexCfg) ([], 0) (cexA, cexB)
      = ([(cexA, 1), (cexB, 1)], 1) by simp [gspStep, glookup, cex_closeAB, hABne]]
  rw [show gspStep (Panel.isClose cexCfg) ([(cexA, 1), (cexB, 1)], 1) (cexA, cexA)
      = ([(cexA, 1), (cexB, 1)], 1) by simp [gspStep]]
  rw [show gspStep (Panel.isClose cexCfg) ([(cexA, 1), (cexB, 1)], 1) (cexB, cexA)
      = ([(cexA, 1), (cexB, 1)], 1) by
    simp [gspStep, glookup, cex_closeBA, List.find?, hABne, hBAne]]
  rw [show collectGroups [(cexA, 1), (cexB, 1)] = [(1, [cexA, cexB])] by
    simp [collectGroups, List.any]]
  simp only [List.foldl_cons, List.foldl_nil]
  rw [show gspApply [cexA, cexB, cexA] [cexA, cexB] = [cexA, Panel.fromXYRB 0 0 12 5] by
    simp [gspApply, groupBBox, List.erase, cexA, cexB, Panel.fromXYRB]]

/-- A second, independent divergence of `group_small_panels` from the
close-component replacement: with a duplicate small panel in the input, the
value-based `self.panels.remove` deletes only the first copy of each grouped
member, so a copy of a grouped panel survives next to the bounding box. -/
theorem group_small_panels_counterexample :
    Panel.isSmall cexCfg cexA = true ∧ Panel.isSmall cexCfg cexB = true ∧
      Panel.isClose cexCfg cexA cexB = true ∧
      groupSmallPanels cexCfg [cexA, cexB, cexA] = [cexA, Panel.fromXYRB 0 0 12 5] ∧
      cexA ∈ groupSmallPanels cexCfg [cexA, cexB, cexA] ∧ cexA ≠ Panel.fromXYRB 0 0 12 5 :=
  ⟨cex_smallA, cex_smallB, cex_closeAB, cex_gsp, by rw [cex_gsp]; exact List.mem_cons_self _ _,
    by decide⟩


/-! ### C2: the merge loop strands group members -/

theorem gsp_smallZ : Panel.isSmall cexCfg gspZ = true := by
  norm_num [Panel.isSmall, PageCfg.S, Panel.w, Panel.h, cexCfg, gspZ]

theorem gsp_smallX : Panel.isSmall cexCfg gspX = true := by
  norm_num [Panel.isSmall, PageCfg.S, Panel.w, Panel.h, cexCfg, gspX]

theorem gsp_smallY : Panel.isSmall cexCfg gspY = true := by
  norm_num [Panel.isSmall, PageCfg.S, Panel.w, Panel.h, cexCfg, gspY]

theorem gsp_smallW : Panel.isSmall cexCfg gspW = true := by
  norm_num [Panel.isSmall, PageCfg.S, Panel.w, Panel.h, cexCfg, gspW]

theorem gsp_smallA : Panel.isSmall cexCfg gspA = true := by
  norm_num [Panel.isSmall, PageCfg.S, Panel.w, Panel.h, cexCfg, gspA]

theorem gsp_cZX : Panel.isClose cexCfg gspZ gspX = true := by
  norm_num [Panel.isClose, PageCfg.S, Panel.yOverlap, Panel.xOverlap, cexCfg, gspZ, gspX]

theorem gsp_cXY : Panel.isClose cexCfg gspX gspY = true := by
  norm_num [Panel.isClose, PageCfg.S, Panel.yOverlap, Panel.xOverlap, cexCfg, gspX, gspY]

theorem gsp_cYW : Panel.isClose cexCfg gspY gspW = true := by
  norm_num [Panel.isClose, PageCfg.S, Panel.yOverlap, Panel.xOverlap, cexCfg, gspY, gspW]

theorem gsp_cWA : Panel.isClose cexCfg gspW gspA = true := by
  norm_num [Panel.isClose, PageCfg.S, Panel.yOverlap, Panel.xOverlap, cexCfg, gspW, gspA]

theorem gsp_cXZ : Panel.isClose cexCfg gspX gspZ = true := by
  norm_num [Panel.isClose, PageCfg.S, Panel.yOverlap, Panel.xOverlap, cexCfg, gspX, gspZ]

theorem gsp_cAW : Panel.isClose cexCfg gspA gspW = true := by
  norm_num [Panel.isClose, PageCfg.S, Panel.yOverlap, Panel.xOverlap, cexCfg, gspA, gspW]

theorem gsp_cWY : Panel.isClose cexCfg gspW gspY = true := by
  norm_num [Panel.isClose, PageCfg.S, Panel.yOverlap, Panel.xOverlap, cexCfg, gspW, gspY]

theorem gsp_ncXA : Panel.isClose cexCfg gspX gspA = false := by
  norm_num [Panel.isClose, PageCfg.S, Panel.yOverlap, Panel.xOverlap, cexCfg, gspX, gspA]

theorem gsp_ncXW : Panel.isClose cexCfg gspX gspW = false := by
  norm_num [Panel.isClose, PageCfg.S, Panel.yOverlap, Panel.xOverlap, cexCfg, gspX, gspW]

theorem gsp_ncAY : Panel.isClose cexCfg gspA gspY = false := by
  norm_num [Panel.isClose, PageCfg.S, Panel.yOverlap, Panel.xOverlap, cexCfg, gspA, gspY]

theorem gsp_ncAZ : Panel.isClose cexCfg gspA gspZ = false := by
  norm_num [Panel.isClose, PageCfg.S, Panel.yOverlap, Panel.xOverlap, cexCfg, gspA, gspZ]

theorem gsp_ncWZ : Panel.isClose cexCfg gspW gspZ = false := by
  norm_num [Panel.isClose, PageCfg.S, Panel.yOverlap, Panel.xOverlap, cexCfg, gspW, gspZ]

theorem gsp_ncYZ : Panel.isClose cexCfg gspY gspZ = false := by
  norm_num [Panel.isClose, PageCfg.S, Panel.yOverlap, Panel.xOverlap, cexCfg, gspY, gspZ]

theorem gsp_ncZY : Panel.isClose cexCfg gspZ gspY = false := by
  norm_num [Panel.isClose, PageCfg.S, Panel.yOverlap, Panel.xOverlap, cexCfg, gspZ, gspY]

theorem gsp_ncZW : Panel.isClose cexCfg gspZ gspW = false := by
  norm_num [Panel.isClose, PageCfg.S, Panel.yOverlap, Panel.xOverlap, cexCfg, gspZ, gspW]

theorem gsp_ncZA : Panel.isClose cexCfg gspZ gspA = false := by
  norm_num [Panel.isClose, PageCfg.S, Panel.yOverlap, Panel.xOverlap, cexCfg, gspZ, gspA]

theorem gsp_ncYA : Panel.isClose cexCfg gspY gspA = false := by
  norm_num [Panel.isClose, PageCfg.S, Panel.yOverlap, Panel.xOverlap, cexCfg, gspY, gspA]

theorem gsp_run_sorted :
    groupSmallPanels cexCfg gspSorted = [Panel.fromXYRB 0 0 53 5] := by
  have hfil : List.filter (Panel.isSmall cexCfg) [gspZ, gspX, gspY, gspW, gspA]
      = [gspZ, gspX, gspY, gspW, gspA] := by
    simp [List.filter, gsp_smallZ, gsp_smallX, gsp_smallY, gsp_smallW, gsp_smallA]
  simp only [groupSmallPanels, gspSorted, hfil]
  simp only [allPairs, List.map, List.cons_append, List.nil_append, List.append_nil]
  simp only [List.foldl_cons, List.foldl_nil]
  simp only [gspStep]
  simp only [gsp_cZX, gsp_ncZY, gsp_ncZW, gsp_ncZA, gsp_cXY, gsp_ncXW, gsp_ncXA,
    gsp_cYW, gsp_ncYA, gsp_cWA]
  decide

theorem gsp_run_input :
    groupSmallPanels cexCfg gspInput = [Panel.fromXYRB 12 0 53 5, gspZ] := by
  have hfil : List.filter (Panel.isSmall cexCfg) [gspX, gspA, gspW, gspY, gspZ]
      = [gspX, gspA, gspW, gspY, gspZ] := by
    simp [List.filter, gsp_smallZ, gsp_smallX, gsp_smallY, gsp_smallW, gsp_smallA]
  simp only [groupSmallPanels, gspInput, hfil]
  simp only [allPairs, List.map, List.cons_append, List.nil_append, List.append_nil]
  simp only [List.foldl_cons, List.foldl_nil]
  simp only [gspStep]
  simp only [gsp_ncXA, gsp_ncXW, gsp_cXY, gsp_cXZ, gsp_cAW, gsp_ncAY, gsp_ncAZ,
    gsp_cWY, gsp_ncWZ, gsp_ncYZ]
  decide

/-- C2: `group_small_panels` does not compute the claimed close-component
replacement, and its result depends on the input order.  The five panels of
`gspInput` are duplicate-free, all small, and chained into a single "close"
component, so the claim prescribes one bounding box — which the reading order
`gspSorted` indeed produces; but on the permutation `gspInput` the merge loop
of lines 181-183 re-reads `groups[p2]` while iterating the live dictionary,
strands the panel at the origin in its old group, and the output keeps that
small panel beside the bounding box of the other four: a different panel set
for a permutation of the same input. -/
theorem group_small_panels_order_dependent :
    (∀ p ∈ gspInput, Panel.isSmall cexCfg p = true) ∧
      Panel.isClose cexCfg gspZ gspX = true ∧
      Panel.isClose cexCfg gspX gspY = true ∧
      Panel.isClose cexCfg gspY gspW = true ∧
      Panel.isClose cexCfg gspW gspA = true ∧
      gspInput.Nodup ∧ gspSorted.Perm gspInput ∧
      groupSmallPanels cexCfg gspSorted = [Panel.fromXYRB 0 0 53 5] ∧
      groupSmallPanels cexCfg gspInput = [Panel.fromXYRB 12 0 53 5, gspZ] ∧
      (groupSmallPanels cexCfg gspInput).toFinset
        ≠ (groupSmallPanels cexCfg gspSorted).toFinset := by
  refine ⟨?_, gsp_cZX, gsp_cXY, gsp_cYW, gsp_cWA, by decide, by decide,
    gsp_run_sorted, gsp_run_input, ?_⟩
  · intro p hp
    simp only [gspInput, List.mem_cons, List.not_mem_nil, or_false] at hp
    rcases hp with rfl | rfl | rfl | rfl | rfl
    · exact gsp_smallX
    · exact gsp_smallA
    · exact gsp_smallW
    · exact gsp_smallY
    · exact gsp_smallZ
  · rw [gsp_run_sorted, gsp_run_input]
    decide
